import Mathlib

/-!
Verification of the entity-span resolution and reversible redaction engine of
the `inconnu` library.

Python text values are modelled as `List Char` (Python strings are sequences
of unicode code points, indexed and sliced by character).  Python `int` is
modelled as `Int` where negative values can occur (the span validator) and as
`Nat` where the source guarantees non-negative offsets (character offsets of
pipeline entities).  Floating point confidences are modelled exactly, in
hundredths (the source only manipulates the decimal literals 0.0 … 1.0 with
two decimals, all exactly representable).

Sources embedded here:
  * `inconnu/nlp/validators.py`  — checksum validators,
  * `inconnu/nlp/utils.py`       — `validate_entity_spans`,
    `filter_overlapping_spans`, the `singleton` decorator,
  * `inconnu/nlp/entity_redactor.py` — `EntityRedactor.redact`,
    `EntityRedactor.deanonymize`,
  * `inconnu/__init__.py`        — `Inconnu.__call__`, `Inconnu.redact`.
-/

namespace Inconnu

/-- Text is a list of unicode characters, matching Python string semantics for
indexing, slicing and concatenation. -/
abbrev Text := List Char

/-- Characters of a string literal. -/
def str (s : String) : Text := s.data

/-- ASCII decimal digit test (Python `\d` / `str.isdigit` on the data that the
validators receive). -/
def charIsDigit (c : Char) : Bool := decide ('0' ≤ c) && decide (c ≤ '9')

/-- Character allowed in a placeholder label: an upper-case ASCII letter or an
underscore (the `[A-Z_]` class of the placeholder grammar). -/
def isLabelChar (c : Char) : Bool := (decide ('A' ≤ c) && decide (c ≤ 'Z')) || decide (c = '_')

/-- Decimal digit character for a single digit value. -/
def digitChar : Nat → Char
  | 0 => '0'
  | 1 => '1'
  | 2 => '2'
  | 3 => '3'
  | 4 => '4'
  | 5 => '5'
  | 6 => '6'
  | 7 => '7'
  | 8 => '8'
  | _ => '9'

/-- Numeric value of a decimal digit character. -/
def digitVal : Char → Nat
  | '0' => 0
  | '1' => 1
  | '2' => 2
  | '3' => 3
  | '4' => 4
  | '5' => 5
  | '6' => 6
  | '7' => 7
  | '8' => 8
  | _ => 9

/-- Fuel-driven decimal printer (the fuel makes the recursion structural so
that the kernel can evaluate it). -/
def natDigitsAux : Nat → Nat → List Char
  | 0, _ => []
  | f + 1, n => if n < 10 then [digitChar n] else natDigitsAux f (n / 10) ++ [digitChar (n % 10)]

/-- Decimal representation of a natural number, as Python `str(n)` produces
for the placeholder counters. -/
def natDigits (n : Nat) : List Char := natDigitsAux (n + 1) n

/-- Value of a decimal digit string, used to invert `natDigits`. -/
def digitsVal (l : List Char) : Nat := l.foldl (fun a c => 10 * a + digitVal c) 0

theorem digitChar_isDigit (d : Nat) : charIsDigit (digitChar d) = true := by
  match d with
  | 0 => rfl
  | 1 => rfl
  | 2 => rfl
  | 3 => rfl
  | 4 => rfl
  | 5 => rfl
  | 6 => rfl
  | 7 => rfl
  | 8 => rfl
  | _ + 9 => rfl

theorem digitVal_digitChar (d : Nat) (h : d < 10) : digitVal (digitChar d) = d := by
  interval_cases d <;> rfl

theorem natDigitsAux_congr (n : Nat) : ∀ f g, n < f → n < g → natDigitsAux f n = natDigitsAux g n := by
  induction n using Nat.strong_induction_on with
  | _ n ih =>
    intro f g hf hg
    match f, g with
    | f + 1, g + 1 =>
      simp only [natDigitsAux]
      by_cases h : n < 10
      · simp [h]
      · have hd : n / 10 < n := Nat.div_lt_self (by omega) (by omega)
        simp only [if_neg h]
        rw [ih (n / 10) hd f g (by omega) (by omega)]

theorem natDigits_small (n : Nat) (h : n < 10) : natDigits n = [digitChar n] := by
  simp [natDigits, natDigitsAux, h]

theorem natDigits_large (n : Nat) (h : 10 ≤ n) :
    natDigits n = natDigits (n / 10) ++ [digitChar (n % 10)] := by
  have hd : n / 10 < n := Nat.div_lt_self (by omega) (by omega)
  show natDigitsAux (n + 1) n = _
  simp only [natDigitsAux, if_neg (by omega : ¬ n < 10)]
  rw [natDigitsAux_congr (n / 10) n (n / 10 + 1) (by omega) (by omega)]
  rfl

theorem digitsVal_append_singleton (a : List Char) (c : Char) :
    digitsVal (a ++ [c]) = 10 * digitsVal a + digitVal c := by
  simp [digitsVal, List.foldl_append]

theorem digitsVal_natDigits (n : Nat) : digitsVal (natDigits n) = n := by
  induction n using Nat.strong_induction_on with
  | _ n ih =>
    by_cases h : n < 10
    · rw [natDigits_small n h]
      simp [digitsVal, digitVal_digitChar n h]
    · have hd : n / 10 < n := Nat.div_lt_self (by omega) (by omega)
      rw [natDigits_large n (by omega), digitsVal_append_singleton, ih (n / 10) hd,
        digitVal_digitChar (n % 10) (by omega)]
      omega

theorem natDigits_injective (m n : Nat) (h : natDigits m = natDigits n) : m = n := by
  have := digitsVal_natDigits m
  rw [h, digitsVal_natDigits] at this
  omega

theorem natDigits_all_digit (n : Nat) : ∀ c ∈ natDigits n, charIsDigit c = true := by
  induction n using Nat.strong_induction_on with
  | _ n ih =>
    by_cases h : n < 10
    · rw [natDigits_small n h]
      intro c hc
      simp only [List.mem_singleton] at hc
      subst hc
      exact digitChar_isDigit n
    · have hd : n / 10 < n := Nat.div_lt_self (by omega) (by omega)
      rw [natDigits_large n (by omega)]
      intro c hc
      rcases List.mem_append.mp hc with h1 | h1
      · exact ih (n / 10) hd c h1
      · simp only [List.mem_singleton] at h1
        subst h1
        exact digitChar_isDigit (n % 10)

/-- Slice `t[a:b]` of a text, Python slicing semantics (clamped at both ends
because the offsets are already non-negative naturals). -/
def seg (t : Text) (a b : Nat) : Text := (t.drop a).take (b - a)

theorem seg_glue (t : Text) (a b c : Nat) (hab : a ≤ b) (hbc : b ≤ c) :
    seg t a b ++ seg t b c = seg t a c := by
  unfold seg
  have hdrop : t.drop b = (t.drop a).drop (b - a) := by
    rw [List.drop_drop]
    congr 1
    omega
  rw [hdrop, ← List.take_add]
  congr 1
  omega

theorem seg_append_drop (t : Text) (a b : Nat) (hab : a ≤ b) :
    seg t a b ++ t.drop b = t.drop a := by
  unfold seg
  have hdrop : t.drop b = (t.drop a).drop (b - a) := by
    rw [List.drop_drop]
    congr 1
    omega
  rw [hdrop, List.take_append_drop]

theorem seg_length (t : Text) (a b : Nat) (hb : b ≤ t.length) (hab : a ≤ b) :
    (seg t a b).length = b - a := by
  unfold seg
  rw [List.length_take, List.length_drop]
  omega

/-- Boolean prefix test: `startsWithL p s` holds when text `s` begins with
`p`, as Python `s.startswith(p)`. -/
def startsWithL : Text → Text → Bool
  | [], _ => true
  | _ :: _, [] => false
  | a :: p, b :: s => decide (a = b) && startsWithL p s

theorem startsWithL_iff (p s : Text) : startsWithL p s = true ↔ s.take p.length = p := by
  induction p generalizing s with
  | nil => simp [startsWithL]
  | cons a p ih =>
    cases s with
    | nil => simp [startsWithL]
    | cons b s =>
      simp only [startsWithL, Bool.and_eq_true, decide_eq_true_eq, List.length_cons,
        List.take_succ_cons, List.cons.injEq, ih]
      constructor
      · rintro ⟨h1, h2⟩
        exact ⟨h1.symm, h2⟩
      · rintro ⟨h1, h2⟩
        exact ⟨h1.symm, h2⟩

/-- Occurrence of `t` in `s` at character offset `q`. -/
def occAt (s : Text) (q : Nat) (t : Text) : Prop := (s.drop q).take t.length = t

instance (s : Text) (q : Nat) (t : Text) : Decidable (occAt s q t) :=
  inferInstanceAs (Decidable (_ = _))

theorem occAt_iff_startsWithL (s : Text) (q : Nat) (t : Text) :
    occAt s q t ↔ startsWithL t (s.drop q) = true := by
  rw [startsWithL_iff]
  exact Iff.rfl

theorem occAt_cons_succ (c : Char) (s : Text) (q : Nat) (t : Text) :
    occAt (c :: s) (q + 1) t ↔ occAt s q t := by
  simp [occAt]

theorem occAt_length_le (s : Text) (q : Nat) (t : Text) (h : occAt s q t) (ht : t ≠ []) :
    q + t.length ≤ s.length := by
  unfold occAt at h
  have hlen := congrArg List.length h
  have hpos : 0 < t.length := List.length_pos.mpr ht
  rw [List.length_take, List.length_drop, Nat.min_def] at hlen
  split at hlen <;> omega

theorem occAt_append_left (a b : Text) (q : Nat) (t : Text)
    (hq : q + t.length ≤ a.length) (h : occAt (a ++ b) q t) : occAt a q t := by
  unfold occAt at h ⊢
  rw [List.drop_append_of_le_length (by omega)] at h
  rw [List.take_append_of_le_length (by rw [List.length_drop]; omega)] at h
  exact h

theorem occAt_append_right (a b : Text) (q : Nat) (t : Text)
    (hq : a.length ≤ q) (h : occAt (a ++ b) q t) : occAt b (q - a.length) t := by
  unfold occAt at h ⊢
  rw [show q = a.length + (q - a.length) by omega, ← List.drop_drop, List.drop_left] at h
  exact h

theorem occAt_append_shift (a b : Text) (q : Nat) (t : Text) (h : occAt b q t) :
    occAt (a ++ b) (a.length + q) t := by
  unfold occAt at h ⊢
  rw [← List.drop_drop, List.drop_left]
  exact h

theorem occAt_here (a b t : Text) : occAt (a ++ t ++ b) a.length t := by
  unfold occAt
  rw [List.append_assoc, List.drop_left, List.take_append_of_le_length (le_refl _),
    List.take_length]

theorem occAt_of_take (s : Text) (n q : Nat) (t : Text) (h : occAt (s.take n) q t) :
    occAt s q t := by
  by_cases ht : t = []
  · subst ht
    rfl
  · have hle := occAt_length_le _ _ _ h ht
    unfold occAt at h ⊢
    conv_lhs => rw [← List.take_append_drop n s]
    rw [List.drop_append_of_le_length (by omega),
      List.take_append_of_le_length (by rw [List.length_drop]; omega)]
    exact h

theorem occAt_of_seg (t : Text) (a b q : Nat) (p : Text) (h : occAt (seg t a b) q p) :
    occAt t (a + q) p := by
  unfold seg at h
  have h2 : occAt (t.drop a) q p := occAt_of_take _ _ _ _ h
  unfold occAt at h2 ⊢
  rw [List.drop_drop] at h2
  exact h2

theorem occAt_take_sub (s : Text) (q : Nat) (t : Text) (n : Nat) (hn : n ≤ t.length)
    (h : occAt s q t) : occAt s q (t.take n) := by
  unfold occAt at h ⊢
  rw [List.length_take, Nat.min_eq_left hn, ← h, List.take_take, Nat.min_eq_left hn]

theorem occAt_split (s : Text) (q : Nat) (t : Text) (h : occAt s q t) :
    s = s.take q ++ t ++ s.drop (q + t.length) := by
  unfold occAt at h
  conv_lhs => rw [← List.take_append_drop q s, ← List.take_append_drop t.length (s.drop q),
    h, List.drop_drop]
  rw [List.append_assoc]

/-- `replaceGo p r k s` is Python `s.replace(p, r)` still owing `k` characters
of an already-emitted match; the extra counter makes the recursion structural
in `s`, so the kernel can evaluate it. -/
def replaceGo (p r : Text) : Nat → Text → Text
  | k + 1, _ :: s => replaceGo p r k s
  | _, [] => []
  | 0, c :: s =>
    if startsWithL p (c :: s) then r ++ replaceGo p r (p.length - 1) s
    else c :: replaceGo p r 0 s

/-- Python `s.replace(p, r)`: replace every occurrence of `p` in `s` by `r`,
scanning left to right without overlap.  The guard on an empty pattern keeps
the definition total; every pattern used by the engine is a non-empty
placeholder. -/
def replaceAll (p r s : Text) : Text := if p.isEmpty then s else replaceGo p r 0 s

theorem replaceGo_succ_cons (p r : Text) (k : Nat) (c : Char) (s : Text) :
    replaceGo p r (k + 1) (c :: s) = replaceGo p r k s := rfl

theorem replaceGo_nil (p r : Text) (k : Nat) : replaceGo p r k [] = [] := by
  cases k <;> rfl

theorem replaceGo_zero_cons (p r : Text) (c : Char) (s : Text) :
    replaceGo p r 0 (c :: s) =
      if startsWithL p (c :: s) then r ++ replaceGo p r (p.length - 1) s
      else c :: replaceGo p r 0 s := rfl

theorem replaceGo_skip (p r : Text) (k : Nat) (s : Text) :
    replaceGo p r k s = replaceGo p r 0 (s.drop k) := by
  induction k generalizing s with
  | zero => rw [List.drop_zero]
  | succ k ih =>
    cases s with
    | nil => rw [replaceGo_nil, List.drop_nil, replaceGo_nil]
    | cons c s =>
      rw [List.drop_succ_cons, replaceGo_succ_cons]
      exact ih s

theorem replaceAll_of_ne (p r s : Text) (hp : p ≠ []) :
    replaceAll p r s = replaceGo p r 0 s := by
  unfold replaceAll
  rw [if_neg (by simp [List.isEmpty_iff, hp])]

theorem replaceAll_nil (p r : Text) : replaceAll p r [] = [] := by
  unfold replaceAll
  split
  · rfl
  · rw [replaceGo_nil]

theorem replaceAll_pos (p r s : Text) (hp : p ≠ []) (h : startsWithL p s = true) :
    replaceAll p r s = r ++ replaceAll p r (s.drop p.length) := by
  cases s with
  | nil =>
    cases p with
    | nil => exact absurd rfl hp
    | cons a p => simp [startsWithL] at h
  | cons c s =>
    rw [replaceAll_of_ne _ _ _ hp, replaceAll_of_ne _ _ _ hp, replaceGo_zero_cons,
      if_pos h, replaceGo_skip]
    cases p with
    | nil => exact absurd rfl hp
    | cons a p =>
      simp only [List.length_cons, Nat.add_sub_cancel, List.drop_succ_cons]

theorem replaceAll_neg (p r : Text) (c : Char) (s : Text) (hp : p ≠ [])
    (h : startsWithL p (c :: s) = false) :
    replaceAll p r (c :: s) = c :: replaceAll p r s := by
  rw [replaceAll_of_ne _ _ _ hp, replaceAll_of_ne _ _ _ hp, replaceGo_zero_cons,
    if_neg (by simp [h])]

theorem replaceAll_of_no_occ (p r s : Text) (hp : p ≠ []) (h : ∀ q, ¬ occAt s q p) :
    replaceAll p r s = s := by
  induction s with
  | nil => exact replaceAll_nil p r
  | cons c s ih =>
    have h0 : startsWithL p (c :: s) = false := by
      cases hb : startsWithL p (c :: s) with
      | false => rfl
      | true => exact absurd ((occAt_iff_startsWithL _ 0 _).mpr (by rwa [List.drop_zero])) (h 0)
    rw [replaceAll_neg p r c s hp h0, ih]
    intro q hq
    exact h (q + 1) ((occAt_cons_succ c s q p).mpr hq)

theorem replaceAll_append_ge (p r : Text) (b : Text) (a : Text) (hp : p ≠ [])
    (h : ∀ q, occAt (a ++ b) q p → a.length ≤ q) :
    replaceAll p r (a ++ b) = a ++ replaceAll p r b := by
  induction a with
  | nil => simp
  | cons c a ih =>
    have h0 : startsWithL p (c :: (a ++ b)) = false := by
      cases hb : startsWithL p (c :: (a ++ b)) with
      | false => rfl
      | true =>
        have hocc : occAt ((c :: a) ++ b) 0 p := by
          rw [occAt_iff_startsWithL, List.drop_zero]
          exact hb
        have := h 0 hocc
        simp at this
    have hstep : replaceAll p r ((c :: a) ++ b) = c :: replaceAll p r (a ++ b) :=
      replaceAll_neg p r c (a ++ b) hp h0
    have hrest : replaceAll p r (a ++ b) = a ++ replaceAll p r b := by
      apply ih
      intro q hq
      have := h (q + 1) ((occAt_cons_succ c (a ++ b) q p).mpr hq)
      simp only [List.length_cons] at this
      omega
    rw [hstep, hrest]
    rfl

theorem replaceAll_single (p r : Text) (hp : p ≠ []) (a b : Text)
    (huniq : ∀ q, occAt (a ++ p ++ b) q p → q = a.length) :
    replaceAll p r (a ++ p ++ b) = a ++ r ++ b := by
  have hge : ∀ q, occAt (a ++ (p ++ b)) q p → a.length ≤ q := by
    intro q hq
    rw [← List.append_assoc] at hq
    exact le_of_eq (huniq q hq).symm
  rw [List.append_assoc, replaceAll_append_ge p r (p ++ b) a hp hge]
  have hpos : startsWithL p (p ++ b) = true := by
    rw [startsWithL_iff, List.take_append_of_le_length (le_refl _), List.take_length]
  rw [replaceAll_pos p r (p ++ b) hp hpos, List.drop_left]
  have hnob : replaceAll p r b = b := by
    apply replaceAll_of_no_occ p r b hp
    intro q hq
    have : occAt (a ++ p ++ b) (a.length + p.length + q) p := by
      have h1 := occAt_append_shift p b q p hq
      have h2 := occAt_append_shift a (p ++ b) (p.length + q) p (by
        rwa [show p.length + q = p.length + q from rfl])
      rw [← List.append_assoc] at h2
      rw [show a.length + p.length + q = a.length + (p.length + q) from by omega]
      exact h2
    have := huniq _ this
    have hppos : 0 < p.length := List.length_pos.mpr hp
    omega
  rw [hnob, List.append_assoc]

/-- Helper for `isMiddle`: after stripping the trailing digits (in reversed
order), the remainder must be an underscore followed by a non-empty label. -/
def midTail : Text → Bool
  | [] => false
  | c :: rest2 => decide (c = '_') && (!rest2.isEmpty && rest2.all isLabelChar)

/-- Middle part of a placeholder token: matches `[A-Z_]+(_\d+)?` (the part of
the placeholder grammar between the brackets). -/
def isMiddle (m : Text) : Bool :=
  if (m.reverse.takeWhile charIsDigit).isEmpty then !m.isEmpty && m.all isLabelChar
  else midTail (m.reverse.dropWhile charIsDigit)

/-- A full placeholder-shaped token: `[` middle `]` with the middle matching
the placeholder grammar `[A-Z_]+(_\d+)?`. -/
def TokFull (t : Text) : Prop := ∃ m, t = '[' :: m ++ [']'] ∧ isMiddle m = true

theorem isLabelChar_not_bracket (c : Char) (h : isLabelChar c = true) :
    c ≠ '[' ∧ c ≠ ']' := by
  constructor <;> rintro rfl <;> simp [isLabelChar] at h

theorem charIsDigit_not_bracket (c : Char) (h : charIsDigit c = true) :
    c ≠ '[' ∧ c ≠ ']' := by
  constructor <;> rintro rfl <;> simp [charIsDigit] at h

theorem isMiddle_chars (m : Text) (h : isMiddle m = true) :
    ∀ c ∈ m, isLabelChar c = true ∨ charIsDigit c = true := by
  intro c hc
  unfold isMiddle at h
  have hcr : c ∈ m.reverse := List.mem_reverse.mpr hc
  rw [← List.takeWhile_append_dropWhile charIsDigit m.reverse] at hcr
  rcases List.mem_append.mp hcr with hd | hrest
  · exact Or.inr (List.mem_takeWhile_imp hd)
  · split at h
    · have hall := (Bool.and_eq_true _ _).mp h |>.2
      rw [List.all_eq_true] at hall
      exact Or.inl (hall c hc)
    · cases hdw : m.reverse.dropWhile charIsDigit with
      | nil => rw [hdw] at hrest; simp at hrest
      | cons d rest2 =>
        rw [hdw] at h hrest
        unfold midTail at h
        obtain ⟨hd1, hd2⟩ := (Bool.and_eq_true _ _).mp h
        obtain ⟨_, hall⟩ := (Bool.and_eq_true _ _).mp hd2
        rw [List.all_eq_true] at hall
        rcases List.mem_cons.mp hrest with h1 | h1
        · subst h1
          rw [decide_eq_true_eq] at hd1
          subst hd1
          exact Or.inl (by decide)
        · exact Or.inl (hall c h1)

theorem isMiddle_no_bracket (m : Text) (h : isMiddle m = true) :
    ∀ c ∈ m, c ≠ '[' ∧ c ≠ ']' := by
  intro c hc
  rcases isMiddle_chars m h c hc with h1 | h1
  · exact isLabelChar_not_bracket c h1
  · exact charIsDigit_not_bracket c h1

theorem isMiddle_ne_nil (m : Text) (h : isMiddle m = true) : m ≠ [] := by
  rintro rfl
  simp [isMiddle] at h

theorem TokFull_ne_nil (t : Text) (h : TokFull t) : t ≠ [] := by
  obtain ⟨m, rfl, _⟩ := h
  simp

theorem TokFull_length (t : Text) (h : TokFull t) : 3 ≤ t.length := by
  obtain ⟨m, rfl, hm⟩ := h
  have := isMiddle_ne_nil m hm
  have := List.length_pos.mpr this
  simp only [List.length_cons, List.length_append, List.length_singleton]
  omega

/-- Characters of a placeholder token strictly inside it are never an opening
bracket. -/
theorem TokFull_inner_no_open (t : Text) (h : TokFull t) (q : Nat) (hq1 : 1 ≤ q)
    (hq2 : q < t.length) : ¬ occAt t q ['['] := by
  obtain ⟨m, rfl, hm⟩ := h
  obtain ⟨qq, rfl⟩ : ∃ qq, q = qq + 1 := ⟨q - 1, by omega⟩
  intro hocc
  unfold occAt at hocc
  have hqlt : qq < (m ++ [']']).length := by
    simp only [List.length_cons, List.length_append, List.length_singleton] at hq2 ⊢
    omega
  have hdrop : ('[' :: m ++ [']']).drop (qq + 1) = (m ++ [']']).drop qq := rfl
  rw [hdrop] at hocc
  rcases lt_or_le qq m.length with hlt | hle
  · rw [List.drop_eq_getElem_cons hqlt] at hocc
    simp only [List.length_singleton, List.take_succ_cons, List.take_zero,
      List.cons.injEq] at hocc
    have hget := hocc.1
    rw [List.getElem_append_left hlt] at hget
    have hni := (isMiddle_no_bracket m hm _ (List.getElem_mem hlt)).1
    exact hni hget
  · have hq : qq = m.length := by
      simp only [List.length_append, List.length_singleton] at hqlt
      omega
    subst hq
    rw [List.drop_left] at hocc
    simp at hocc

/-- Tries to read a full placeholder token at the start of the input, as the
regex scanner of the restore engine would. -/
def tokenAt? : Text → Option Text
  | [] => none
  | c :: rest =>
    if c = '[' then
      let mid := rest.takeWhile (fun x => !decide (x = ']'))
      if mid.length < rest.length && isMiddle mid then some ('[' :: mid ++ [']']) else none
    else none

theorem takeWhile_prefix_stop (p : Char → Bool) (xs : Text) (y : Char) (zs : Text)
    (hxs : ∀ c ∈ xs, p c = true) (hy : p y = false) :
    (xs ++ y :: zs).takeWhile p = xs := by
  induction xs with
  | nil => simp [List.takeWhile, hy]
  | cons a xs ih =>
    have ha : p a = true := hxs a (List.mem_cons_self a xs)
    simp only [List.cons_append, List.takeWhile_cons, ha, if_true]
    rw [ih (fun c hc => hxs c (List.mem_cons_of_mem a hc))]

theorem dropWhile_head_false (p : Char → Bool) (l : Text) (c : Char) (w : Text)
    (h : l.dropWhile p = c :: w) : p c = false := by
  induction l with
  | nil => simp [List.dropWhile] at h
  | cons a l ih =>
    rw [List.dropWhile_cons] at h
    split at h
    · exact ih h
    · rename_i ha
      obtain ⟨rfl, rfl⟩ := List.cons.injEq .. |>.mp h |>.imp id id
      simpa using ha

theorem take_mid_bracket (mid : Text) (w : Text) :
    (mid ++ ']' :: w).take (mid.length + 1) = mid ++ [']'] := by
  rw [List.take_add, List.take_left]
  congr 1
  rw [List.drop_left]
  rfl

theorem tokenAt?_nil : tokenAt? [] = none := rfl

theorem tokenAt?_cons (c : Char) (rest : Text) :
    tokenAt? (c :: rest) =
      if c = '[' then
        if (rest.takeWhile (fun x => !decide (x = ']'))).length < rest.length &&
            isMiddle (rest.takeWhile (fun x => !decide (x = ']'))) then
          some ('[' :: rest.takeWhile (fun x => !decide (x = ']')) ++ [']'])
        else none
      else none := rfl

theorem tokenAt?_some (s t : Text) (h : tokenAt? s = some t) :
    TokFull t ∧ occAt s 0 t := by
  match s with
  | [] => simp [tokenAt?_nil] at h
  | c :: rest =>
    rw [tokenAt?_cons] at h
    by_cases hc : c = '['
    · subst hc
      rw [if_pos rfl] at h
      split at h
      · rename_i hcond
        obtain ⟨hlen, hmidok⟩ := (Bool.and_eq_true _ _).mp hcond
        rw [decide_eq_true_eq] at hlen
        have ht : t = '[' :: rest.takeWhile (fun x => !decide (x = ']')) ++ [']'] :=
          (Option.some.injEq _ _ |>.mp h).symm
        refine ⟨⟨rest.takeWhile (fun x => !decide (x = ']')), ht, hmidok⟩, ?_⟩
        have hdw : rest.dropWhile (fun x => !decide (x = ']')) ≠ [] := by
          intro hnil
          have hsplit := List.takeWhile_append_dropWhile (fun x => !decide (x = ']')) rest
          rw [hnil, List.append_nil] at hsplit
          rw [hsplit] at hlen
          omega
        obtain ⟨d, w, hdweq⟩ := List.exists_cons_of_ne_nil hdw
        have hd : d = ']' := by
          have := dropWhile_head_false _ rest d w hdweq
          simpa using this
        subst hd
        have hrest : rest = rest.takeWhile (fun x => !decide (x = ']')) ++ ']' :: w := by
          conv_lhs => rw [← List.takeWhile_append_dropWhile (fun x => !decide (x = ']')) rest]
          rw [hdweq]
        have hsw : ('[' :: rest : Text) =
            ('[' :: rest.takeWhile (fun x => !decide (x = ']')) ++ [']']) ++ w := by
          conv_lhs => rw [hrest]
          simp
        rw [ht]
        unfold occAt
        rw [List.drop_zero, hsw, List.take_left]
      · exact absurd h (by simp)
    · rw [if_neg hc] at h
      exact absurd h (by simp)

theorem tokenAt?_complete (s t : Text) (ht : TokFull t) (h : occAt s 0 t) :
    tokenAt? s = some t := by
  obtain ⟨m, rfl, hm⟩ := ht
  have hsplit := occAt_split s 0 _ h
  rw [List.take_zero, List.nil_append, Nat.zero_add] at hsplit
  set w := s.drop ('[' :: m ++ [']']).length with hw
  have hs : s = '[' :: (m ++ ']' :: w) := by
    rw [hsplit]
    simp
  rw [hs, tokenAt?_cons, if_pos rfl]
  have htw : (m ++ ']' :: w).takeWhile (fun x => !decide (x = ']')) = m := by
    apply takeWhile_prefix_stop
    · intro c hc
      have := (isMiddle_no_bracket m hm c hc).2
      simpa using this
    · simp
  rw [htw]
  have hcond : (m.length < (m ++ ']' :: w).length && isMiddle m) = true := by
    rw [Bool.and_eq_true]
    refine ⟨?_, hm⟩
    simp only [List.length_append, List.length_cons, decide_eq_true_eq]
    omega
  rw [if_pos hcond]

/-- Two placeholder tokens cannot overlap: a token occurring at the start of
`t2 ++ v` with `t2` itself a token must be `t2`. -/
theorem tok_startsWith_tok (t1 t2 v : Text) (h1 : TokFull t1) (h2 : TokFull t2)
    (h : occAt (t2 ++ v) 0 t1) : t1 = t2 := by
  have e1 := tokenAt?_complete (t2 ++ v) t1 h1 h
  have e2 := tokenAt?_complete (t2 ++ v) t2 h2 (by
    unfold occAt
    rw [List.drop_zero, List.take_append_of_le_length (le_refl _), List.take_length])
  rw [e1] at e2
  exact Option.some.injEq _ _ |>.mp e2

/-- Piece of a scanned text: either a single plain character or a complete
placeholder-shaped token. -/
inductive Piece where
  | plain : Char → Piece
  | tok : Text → Piece
deriving DecidableEq

/-- Raw text of a piece. -/
def pieceText : Piece → Text
  | .plain c => [c]
  | .tok t => t

/-- Left-to-right scan splitting a text into plain characters and
placeholder-shaped tokens (the `\[[A-Z_]+(_\d+)?\]` matches of the restore
engine).  The counter holds characters of an already-emitted token, making the
recursion structural. -/
def piecesGo : Nat → Text → List Piece
  | k + 1, _ :: s => piecesGo k s
  | _, [] => []
  | 0, c :: s =>
    match tokenAt? (c :: s) with
    | some t => Piece.tok t :: piecesGo (t.length - 1) s
    | none => Piece.plain c :: piecesGo 0 s

/-- All pieces of a text. -/
def pieces (s : Text) : List Piece := piecesGo 0 s

/-- Selects the token of a piece, if any. -/
def tokOf? : Piece → Option Text
  | .tok t => some t
  | .plain _ => none

/-- Placeholder-shaped tokens of a text, in scan order. -/
def tokensOf (s : Text) : List Text := (pieces s).filterMap tokOf?

theorem filterMap_tokOf_cons_tok (t0 : Text) (l : List Piece) :
    (Piece.tok t0 :: l).filterMap tokOf? = t0 :: l.filterMap tokOf? := by
  rw [List.filterMap_cons]
  rfl

theorem filterMap_tokOf_cons_plain (c : Char) (l : List Piece) :
    (Piece.plain c :: l).filterMap tokOf? = l.filterMap tokOf? := by
  rw [List.filterMap_cons]
  rfl

theorem piecesGo_succ_cons (k : Nat) (c : Char) (s : Text) :
    piecesGo (k + 1) (c :: s) = piecesGo k s := rfl

theorem piecesGo_nil (k : Nat) : piecesGo k [] = [] := by
  cases k <;> rfl

theorem piecesGo_skip (k : Nat) (s : Text) : piecesGo k s = piecesGo 0 (s.drop k) := by
  induction k generalizing s with
  | zero => rw [List.drop_zero]
  | succ k ih =>
    cases s with
    | nil => rw [piecesGo_nil, List.drop_nil, piecesGo_nil]
    | cons c s =>
      rw [List.drop_succ_cons, piecesGo_succ_cons]
      exact ih s

theorem pieces_nil : pieces [] = [] := rfl

theorem pieces_cons_tok (c : Char) (s : Text) (t : Text) (h : tokenAt? (c :: s) = some t) :
    pieces (c :: s) = Piece.tok t :: pieces ((c :: s).drop t.length) := by
  have h3 : 3 ≤ t.length := TokFull_length t (tokenAt?_some _ _ h).1
  have e1 : pieces (c :: s) = Piece.tok t :: piecesGo (t.length - 1) s := by
    show piecesGo 0 (c :: s) = _
    simp only [piecesGo, h]
  obtain ⟨k, hk⟩ : ∃ k, t.length = k + 1 := ⟨t.length - 1, by omega⟩
  rw [e1, piecesGo_skip, hk, Nat.add_sub_cancel, List.drop_succ_cons]
  rfl

theorem pieces_cons_plain (c : Char) (s : Text) (h : tokenAt? (c :: s) = none) :
    pieces (c :: s) = Piece.plain c :: pieces s := by
  show piecesGo 0 (c :: s) = _
  simp only [piecesGo, h]
  rfl

/-- Flattening the pieces of a text gives the text back: the scan is a
decomposition, it loses nothing. -/
theorem flat_pieces (s : Text) : ((pieces s).map pieceText).flatten = s := by
  suffices H : ∀ n (s : Text), s.length = n → ((pieces s).map pieceText).flatten = s from
    H s.length s rfl
  intro n
  induction n using Nat.strong_induction_on with
  | _ n ih =>
    intro s hn
    match s with
    | [] => rw [pieces_nil]; rfl
    | c :: s =>
      cases htok : tokenAt? (c :: s) with
      | none =>
        rw [pieces_cons_plain c s htok]
        simp only [List.map_cons, List.flatten_cons, pieceText]
        rw [ih s.length (by subst hn; simp only [List.length_cons]; omega) s rfl]
        rfl
      | some t =>
        obtain ⟨htf, hocc⟩ := tokenAt?_some _ _ htok
        have h3 : 3 ≤ t.length := TokFull_length t htf
        rw [pieces_cons_tok c s t htok]
        simp only [List.map_cons, List.flatten_cons, pieceText]
        have hlen : ((c :: s).drop t.length).length < n := by
          rw [List.length_drop, ← hn]
          simp only [List.length_cons]
          omega
        rw [ih _ hlen _ rfl]
        have := occAt_split _ _ _ hocc
        rw [List.take_zero, List.nil_append, Nat.zero_add] at this
        exact this.symm

/-- Every token piece found by the scan is a full placeholder token occurring
in the text. -/
theorem pieces_tok_occurs (s t : Text) (h : Piece.tok t ∈ pieces s) :
    TokFull t ∧ ∃ q, occAt s q t := by
  suffices H : ∀ n (s : Text), s.length = n → Piece.tok t ∈ pieces s →
      TokFull t ∧ ∃ q, occAt s q t from H s.length s rfl h
  clear h
  intro n
  induction n using Nat.strong_induction_on with
  | _ n ih =>
    intro s hn h
    match s with
    | [] => rw [pieces_nil] at h; simp at h
    | c :: s =>
      cases htok : tokenAt? (c :: s) with
      | none =>
        rw [pieces_cons_plain c s htok] at h
        rcases List.mem_cons.mp h with h1 | h1
        · exact absurd h1 (by simp)
        · obtain ⟨htf, q, hq⟩ :=
            ih s.length (by subst hn; simp only [List.length_cons]; omega) s rfl h1
          exact ⟨htf, q + 1, (occAt_cons_succ c s q t).mpr hq⟩
      | some t0 =>
        obtain ⟨htf0, hocc0⟩ := tokenAt?_some _ _ htok
        have h3 : 3 ≤ t0.length := TokFull_length t0 htf0
        rw [pieces_cons_tok c s t0 htok] at h
        rcases List.mem_cons.mp h with h1 | h1
        · obtain rfl : t = t0 := by injection h1
          exact ⟨htf0, 0, hocc0⟩
        · have hlen : ((c :: s).drop t0.length).length < n := by
            rw [List.length_drop, ← hn]
            simp only [List.length_cons]
            omega
          obtain ⟨htf, q, hq⟩ := ih _ hlen _ rfl h1
          refine ⟨htf, t0.length + q, ?_⟩
          have hsplit := occAt_split _ _ _ hocc0
          rw [List.take_zero, List.nil_append, Nat.zero_add] at hsplit
          have H := occAt_append_shift t0 ((c :: s).drop t0.length) q t hq
          rw [← hsplit] at H
          exact H

/-- Completeness of the scan: every occurrence of a full placeholder token in
a text is reported by `tokensOf`. -/
theorem occ_mem_tokensOf (s : Text) (q : Nat) (t : Text) (ht : TokFull t)
    (h : occAt s q t) : t ∈ tokensOf s := by
  suffices H : ∀ n (s : Text), s.length = n → ∀ q, occAt s q t → t ∈ tokensOf s from
    H s.length s rfl q h
  clear h
  intro n
  induction n using Nat.strong_induction_on with
  | _ n ih =>
    intro s hn q h
    match s with
    | [] =>
      have := occAt_length_le _ _ _ h (TokFull_ne_nil t ht)
      have h3 := TokFull_length t ht
      simp only [List.length_nil] at this
      omega
    | c :: s =>
      cases htok : tokenAt? (c :: s) with
      | none =>
        unfold tokensOf
        rw [pieces_cons_plain c s htok, filterMap_tokOf_cons_plain]
        match q with
        | 0 => exact absurd (tokenAt?_complete _ t ht h) (by rw [htok]; simp)
        | q + 1 =>
          have hmem := ih s.length (by subst hn; simp only [List.length_cons]; omega) s rfl q
            ((occAt_cons_succ c s q t).mp h)
          unfold tokensOf at hmem
          exact hmem
      | some t0 =>
        obtain ⟨htf0, hocc0⟩ := tokenAt?_some _ _ htok
        have h3 : 3 ≤ t0.length := TokFull_length t0 htf0
        unfold tokensOf
        rw [pieces_cons_tok c s t0 htok, filterMap_tokOf_cons_tok]
        have hsplit := occAt_split _ _ _ hocc0
        rw [List.take_zero, List.nil_append, Nat.zero_add] at hsplit
        rcases lt_or_le q t0.length with hq | hq
        · match q, hq with
          | 0, _ =>
            have : t = t0 := by
              apply tok_startsWith_tok t t0 ((c :: s).drop t0.length) ht htf0
              rw [← hsplit]
              exact h
            subst this
            exact List.mem_cons_self _ _
          | q + 1, hq =>
            exfalso
            have hsub : occAt (c :: s) (q + 1) (t.take 1) := by
              apply occAt_take_sub _ _ _ 1 (by have := TokFull_length t ht; omega) h
            have ht1 : t.take 1 = ['['] := by
              obtain ⟨m, rfl, _⟩ := ht
              rfl
            rw [ht1] at hsub
            rw [hsplit] at hsub
            have hinner : occAt t0 (q + 1) ['['] := by
              apply occAt_append_left _ _ _ _ (by simp; omega) hsub
            exact TokFull_inner_no_open t0 htf0 (q + 1) (by omega) (by omega) hinner
        · have hrest : occAt ((c :: s).drop t0.length) (q - t0.length) t := by
            rw [hsplit] at h
            exact occAt_append_right t0 _ q t (by omega) h
          have hlen : ((c :: s).drop t0.length).length < n := by
            rw [List.length_drop, ← hn]
            simp only [List.length_cons]
            omega
          have hmem := ih _ hlen _ rfl _ hrest
          unfold tokensOf at hmem
          exact List.mem_cons_of_mem _ hmem

/-!  Checksum validators (`inconnu/nlp/validators.py`).  Confidences are in
hundredths: the Python source only ever produces the decimal literals 0.0,
0.7, 0.9 and 0.95 for these functions, modelled as 0, 70, 90 and 95. -/

/-- `validators.validate_ssn`: format `DDD-DD-DDDD`, rejecting area 000/666/
900–999, group 00, serial 0000; known test SSNs get confidence 0.9, every
other structurally valid SSN 0.95. -/
def validate_ssn (text : Text) : Bool × Nat :=
  match text with
  | [a1, a2, a3, d1, g1, g2, d2, r1, r2, r3, r4] =>
    if decide (d1 = '-') && decide (d2 = '-') && charIsDigit a1 && charIsDigit a2 &&
        charIsDigit a3 && charIsDigit g1 && charIsDigit g2 && charIsDigit r1 &&
        charIsDigit r2 && charIsDigit r3 && charIsDigit r4 then
      if decide ([a1, a2, a3] = str "000") || decide ([a1, a2, a3] = str "666") ||
          (decide (900 ≤ 100 * digitVal a1 + 10 * digitVal a2 + digitVal a3) &&
            decide (100 * digitVal a1 + 10 * digitVal a2 + digitVal a3 ≤ 999)) then
        (false, 0)
      else if decide ([g1, g2] = str "00") then (false, 0)
      else if decide ([r1, r2, r3, r4] = str "0000") then (false, 0)
      else if decide (text = str "123-45-6789") || decide (text = str "078-05-1120") ||
          decide (text = str "219-09-9999") then (true, 90)
      else (true, 95)
    else (false, 0)
  | _ => (false, 0)

/-- Luhn running sum over the reversed digit string, doubling every second
digit (index 1, 3, 5, … from the right) and subtracting 9 above 9. -/
def luhnSum : Nat → List Char → Nat
  | _, [] => 0
  | i, c :: rest =>
    (if i % 2 = 1 then
      if digitVal c * 2 > 9 then digitVal c * 2 - 9 else digitVal c * 2
    else digitVal c) + luhnSum (i + 1) rest

/-- `validators.validate_credit_card`: strip spaces and dashes, require 13–19
digits, check the Luhn sum, then grade confidence by card-type prefix.
(On an empty stripped string the Python `isdigit` check already fails; here
the length check rejects it, with the same result `(false, 0)`.) -/
def validate_credit_card (text : Text) : Bool × Nat :=
  let card := text.filter fun c => !(decide (c = ' ') || decide (c = '-'))
  if !card.all charIsDigit then (false, 0)
  else if decide (card.length < 13) || decide (card.length > 19) then (false, 0)
  else if luhnSum 0 card.reverse % 10 = 0 then
    if startsWithL (str "4") card then (true, 90)
    else if startsWithL (str "51") card || startsWithL (str "52") card ||
        startsWithL (str "53") card || startsWithL (str "54") card ||
        startsWithL (str "55") card then (true, 90)
    else if startsWithL (str "34") card || startsWithL (str "37") card then (true, 90)
    else if startsWithL (str "6011") card || startsWithL (str "65") card then (true, 90)
    else (true, 70)
  else (false, 0)

/-- `validators.validate_routing_number`: nine digits whose ABA weighted sum
with weights 3,7,1,3,7,1,3,7,1 is divisible by 10. -/
def validate_routing_number (text : Text) : Bool × Nat :=
  match text with
  | [c1, c2, c3, c4, c5, c6, c7, c8, c9] =>
    if charIsDigit c1 && charIsDigit c2 && charIsDigit c3 && charIsDigit c4 &&
        charIsDigit c5 && charIsDigit c6 && charIsDigit c7 && charIsDigit c8 &&
        charIsDigit c9 then
      if (3 * digitVal c1 + 7 * digitVal c2 + 1 * digitVal c3 + 3 * digitVal c4 +
          7 * digitVal c5 + 1 * digitVal c6 + 3 * digitVal c7 + 7 * digitVal c8 +
          1 * digitVal c9) % 10 = 0 then (true, 95)
      else (false, 0)
    else (false, 0)
  | _ => (false, 0)

/-- C9: the checksum validators satisfy the spec's concrete vectors:
`validate_ssn "123-45-6789"` accepts with confidence at least 0.9,
`validate_ssn "666-12-3456"` is `(False, 0.0)`,
`validate_credit_card "4111111111111111"` is `(True, 0.9)`,
`validate_credit_card "4111111111111112"` is `(False, 0.0)`, and
`validate_routing_number "111000025"` is `(True, 0.95)`. -/
theorem c9_checksum_validator_vectors :
    (validate_ssn (str "123-45-6789")).1 = true ∧
    90 ≤ (validate_ssn (str "123-45-6789")).2 ∧
    validate_ssn (str "666-12-3456") = (false, 0) ∧
    validate_credit_card (str "4111111111111111") = (true, 90) ∧
    validate_credit_card (str "4111111111111112") = (false, 0) ∧
    validate_routing_number (str "111000025") = (true, 95) := by
  refine ⟨by decide, by decide, by decide, by decide, by decide, by decide⟩

/-!  Span model and span validator (`inconnu/nlp/utils.py`).  A `PySpan`
mirrors the attributes of a spaCy span that the source reads: `start`, `end`
(named `end_` here, `end` being a Lean keyword), `label_` and `text`.  The
offsets are Python ints, hence `Int`: the validator explicitly handles
negative values.  The dynamic `hasattr(span, "start")` guard of the source
cannot fail on this typed model and is not represented. -/

structure PySpan where
  start : Int
  end_ : Int
  label : Text
  text : Text
deriving DecidableEq, Repr

/-- Association-list lookup with Python-dict semantics (first match; keys of
the modelled dicts are unique). -/
def lookupA {α β : Type} [DecidableEq α] : List (α × β) → α → Option β
  | [], _ => none
  | (k, v) :: rest, key => if key = k then some v else lookupA rest key

/-- Decimal representation of a Python int, as interpolated into error
messages. -/
def intRepr (i : Int) : Text :=
  if i < 0 then '-' :: natDigits (-i).toNat else natDigits i.toNat

/-- First rejection test of `validate_entity_spans`: negative indices. -/
def negCheck (s : PySpan) : Bool := decide (s.start < 0) || decide (s.end_ < 0)

/-- Second rejection test of `validate_entity_spans`: empty or inverted
range. -/
def rangeCheck (s : PySpan) : Bool := decide (s.start ≥ s.end_)

/-- Third rejection test of `validate_entity_spans`: out of document bounds.
Mirrors Python `if doc_length and (span.start >= doc_length or span.end >
doc_length)`: by Python truthiness the whole test is skipped when
`doc_length` is `None` or `0`. -/
def boundsCheck (doc_length : Option Int) (s : PySpan) : Bool :=
  match doc_length with
  | none => false
  | some n => !decide (n = 0) && (decide (s.start ≥ n) || decide (s.end_ > n))

/-- A span is dropped by `validate_entity_spans` exactly when one of the three
checks fires. -/
def span_rejects (doc_length : Option Int) (s : PySpan) : Bool :=
  negCheck s || rangeCheck s || boundsCheck doc_length s

/-- Rejection criterion in the words of the specification: when `doc_length`
is given, the bounds check applies unconditionally (no truthiness exception
for a zero length). -/
def spec_span_rejects (doc_length : Option Int) (s : PySpan) : Bool :=
  negCheck s || rangeCheck s ||
    match doc_length with
    | none => false
    | some n => decide (s.start ≥ n) || decide (s.end_ > n)

def errNeg (i : Nat) (s : PySpan) : Text :=
  str "Span " ++ natDigits i ++ str " has negative indices: start=" ++ intRepr s.start ++
    str ", end=" ++ intRepr s.end_

def errRange (i : Nat) (s : PySpan) : Text :=
  str "Span " ++ natDigits i ++ str " has invalid range: start=" ++ intRepr s.start ++
    str " >= end=" ++ intRepr s.end_

def errBounds (i : Nat) (s : PySpan) (n : Int) : Text :=
  str "Span " ++ natDigits i ++ str " out of bounds: [" ++ intRepr s.start ++ str ", " ++
    intRepr s.end_ ++ str ") in doc of length " ++ intRepr n

/-- Loop body of `utils.validate_entity_spans`, carrying the enumeration
index used in the error messages. -/
def validateGo (doc_length : Option Int) : Nat → List PySpan → List PySpan × List Text
  | _, [] => ([], [])
  | i, s :: rest =>
    let acc := validateGo doc_length (i + 1) rest
    if negCheck s then (acc.1, errNeg i s :: acc.2)
    else if rangeCheck s then (acc.1, errRange i s :: acc.2)
    else if boundsCheck doc_length s then
      (acc.1, errBounds i s (doc_length.getD 0) :: acc.2)
    else (s :: acc.1, acc.2)

/-- `utils.validate_entity_spans`: returns the spans that pass the three
checks together with one error string per dropped span; total, it never
raises. -/
def validate_entity_spans (spans : List PySpan) (doc_length : Option Int) :
    List PySpan × List Text :=
  validateGo doc_length 0 spans

theorem validateGo_spec (doc_length : Option Int) (spans : List PySpan) :
    ∀ i, (validateGo doc_length i spans).1 =
        spans.filter (fun s => !span_rejects doc_length s) ∧
      (validateGo doc_length i spans).2.length =
        (spans.filter (fun s => span_rejects doc_length s)).length := by
  induction spans with
  | nil => intro i; exact ⟨rfl, rfl⟩
  | cons s rest ih =>
    intro i
    obtain ⟨ih1, ih2⟩ := ih (i + 1)
    unfold validateGo
    simp only [span_rejects, List.filter_cons] at ih1 ih2 ⊢
    cases h1 : negCheck s with
    | true => simp [h1, ih1, ih2]
    | false =>
      cases h2 : rangeCheck s with
      | true => simp [h1, h2, ih1, ih2]
      | false =>
        cases h3 : boundsCheck doc_length s with
        | true => simp [h1, h2, h3, ih1, ih2]
        | false => simp [h1, h2, h3, ih1, ih2]

/-- C8 (amended): the span validator keeps exactly the spans passing the
checks `start<0`, `end<0`, `start>=end` and — when `doc_length` is given and
non-zero — `start>=doc_length or end>doc_length`; it is total (never raises)
and collects one error string per rejected span. -/
theorem c8_validate_entity_spans_filter (spans : List PySpan) (doc_length : Option Int) :
    (validate_entity_spans spans doc_length).1 =
      spans.filter (fun s => !span_rejects doc_length s) ∧
    (validate_entity_spans spans doc_length).2.length =
      (spans.filter (fun s => span_rejects doc_length s)).length :=
  validateGo_spec doc_length spans 0

/-- C8 (counterexample): with `doc_length = 0` the claimed criterion rejects
the span `[0, 1)` as out of bounds, but the code accepts it with no error:
Python's `if doc_length and …` skips the bounds check for a zero (falsy)
document length. -/
theorem c8_counterexample_doc_length_zero :
    (validate_entity_spans [⟨0, 1, str "PERSON", str "x"⟩] (some 0)).1 =
      [⟨0, 1, str "PERSON", str "x"⟩] ∧
    (validate_entity_spans [⟨0, 1, str "PERSON", str "x"⟩] (some 0)).2 = [] ∧
    spec_span_rejects (some 0) ⟨0, 1, str "PERSON", str "x"⟩ = true := by
  refine ⟨by decide, by decide, by decide⟩

/-!  Conflict resolver (`utils.filter_overlapping_spans`). -/

/-- The `ENTITY_PRIORITY` table of `filter_overlapping_spans` (higher number
means higher priority). -/
def ENTITY_PRIORITY : List (Text × Int) :=
  [(str "PERSON", 10), (str "SSN", 9), (str "EMAIL", 9), (str "PHONE_NUMBER", 8),
   (str "BADGE_NUMBER", 8), (str "PASSPORT", 8), (str "DRIVER_LICENSE", 8),
   (str "CREDIT_CARD", 8), (str "MRN", 8), (str "NPI", 8), (str "DEA_NUMBER", 8),
   (str "IBAN", 7), (str "TICKET_NUMBER", 7), (str "SWIFT_CODE", 7),
   (str "ROUTING_NUMBER", 7), (str "CASE_NUMBER", 7), (str "BAR_NUMBER", 7),
   (str "VIN", 7), (str "DATE", 6), (str "CRYPTO_WALLET", 6), (str "STUDENT_ID", 6),
   (str "EMPLOYEE_ID", 6), (str "ICD_CODE", 6), (str "PARTICIPANT_ID", 6),
   (str "STUDY_ID", 6), (str "ORDER_NUMBER", 6), (str "GPE", 5), (str "LOC", 5),
   (str "CUSTOMER_ID", 5), (str "ORG", 4), (str "MONEY", 3), (str "TIME", 2),
   (str "WORK_OF_ART", 1), (str "LANGUAGE", 1), (str "PRODUCT", 1), (str "EVENT", 1),
   (str "NORP", 1), (str "FAC", 1), (str "LAW", 1), (str "MISC", 0)]

/-- `ENTITY_PRIORITY.get(label, 0)` (the priority cache of the source is pure
memoisation of this lookup). -/
def priorityOf (label : Text) : Int := (lookupA ENTITY_PRIORITY label).getD 0

/-- Sort key of the source, compared lexicographically ascending:
start, negated span length, negated priority, text length, text. -/
def codeKey (s : PySpan) :
    Lex (Int × Lex (Int × Lex (Int × Lex (Nat × List Char)))) :=
  toLex (s.start, toLex (-(s.end_ - s.start), toLex (-(priorityOf s.label),
    toLex (s.text.length, s.text))))

/-- Sort key in the words of the specification, which claims the text-length
tiebreak is negated (longer text first). -/
def specKey (s : PySpan) :
    Lex (Int × Lex (Int × Lex (Int × Lex (Int × List Char)))) :=
  toLex (s.start, toLex (-(s.end_ - s.start), toLex (-(priorityOf s.label),
    toLex (-(s.text.length : Int), s.text))))

/-- Candidate order used by the source (`sorted` is a stable sort by
`codeKey`; `insertionSort` with a total preorder is also stable). -/
def codeRel (a b : PySpan) : Prop := codeKey a ≤ codeKey b

/-- Candidate order as the specification words it. -/
def specRel (a b : PySpan) : Prop := specKey a ≤ specKey b

instance : DecidableRel codeRel := fun a b => inferInstanceAs (Decidable (codeKey a ≤ codeKey b))

instance : DecidableRel specRel := fun a b => inferInstanceAs (Decidable (specKey a ≤ specKey b))

instance : IsTotal PySpan codeRel := ⟨fun a b => le_total (codeKey a) (codeKey b)⟩

instance : IsTrans PySpan codeRel := ⟨fun _ _ _ h1 h2 => le_trans h1 h2⟩

/-- Final output order of the resolver (`sorted(filtered, key=span.start)`). -/
def startRel (a b : PySpan) : Prop := a.start ≤ b.start

instance : DecidableRel startRel := fun a b => inferInstanceAs (Decidable (a.start ≤ b.start))

/-- `n` consecutive integers starting at `a`. -/
def rangeInt (a : Int) : Nat → List Int
  | 0 => []
  | n + 1 => a :: rangeInt (a + 1) n

theorem mem_rangeInt (n : Nat) : ∀ (a i : Int), i ∈ rangeInt a n ↔ a ≤ i ∧ i < a + n := by
  induction n with
  | zero =>
    intro a i
    constructor
    · intro h
      simp [rangeInt] at h
    · intro h
      exfalso
      omega
  | succ n ih =>
    intro a i
    simp only [rangeInt, List.mem_cons, ih (a + 1) i]
    omega

/-- Character offsets covered by a span, Python `range(span.start, span.end)`
as a set of positions (list membership models set membership). -/
def spanRange (s : PySpan) : List Int := rangeInt s.start (s.end_ - s.start).toNat

/-- Greedy sweep of `filter_overlapping_spans`: accept a span only if its
range does not intersect the covered positions, then add its range. -/
def sweepSpans : List PySpan → List Int → List PySpan
  | [], _ => []
  | s :: rest, covered =>
    if (spanRange s).any (fun i => decide (i ∈ covered)) then sweepSpans rest covered
    else s :: sweepSpans rest (covered ++ spanRange s)

/-- `utils.filter_overlapping_spans`: sort by the composite key, sweep
greedily with a covered-position set, and return the accepted spans sorted by
start offset. -/
def filter_overlapping_spans (spans : List PySpan) : List PySpan :=
  if spans.isEmpty then []
  else List.insertionSort startRel (sweepSpans (List.insertionSort codeRel spans) [])

/-- The resolver as the specification describes it: identical except for the
negated text-length tiebreak in the sort key. -/
def filter_overlapping_spans_spec (spans : List PySpan) : List PySpan :=
  if spans.isEmpty then []
  else List.insertionSort startRel (sweepSpans (List.insertionSort specRel spans) [])

theorem mem_spanRange (s : PySpan) (i : Int) :
    i ∈ spanRange s ↔ s.start ≤ i ∧ i < s.end_ := by
  unfold spanRange
  rw [mem_rangeInt]
  omega

/-- Two spans without a common covered position. -/
def noShared (a b : PySpan) : Prop :=
    ∀ i : Int, ¬ ((a.start ≤ i ∧ i < a.end_) ∧ (b.start ≤ i ∧ i < b.end_))

theorem noShared_symm : ∀ {a b : PySpan}, noShared a b → noShared b a := by
  intro a b h i hi
  exact h i ⟨hi.2, hi.1⟩

theorem sweepSpans_sound (l : List PySpan) :
    ∀ covered, List.Pairwise noShared (sweepSpans l covered) ∧
      ∀ s ∈ sweepSpans l covered, ∀ i ∈ spanRange s, ¬ i ∈ covered := by
  induction l with
  | nil => intro covered; exact ⟨List.Pairwise.nil, by intro s hs; simp [sweepSpans] at hs⟩
  | cons s rest ih =>
    intro covered
    unfold sweepSpans
    cases hover : (spanRange s).any (fun i => decide (i ∈ covered)) with
    | true =>
      rw [if_pos rfl]
      exact ih covered
    | false =>
      rw [if_neg (by simp)]
      obtain ⟨ihp, ihc⟩ := ih (covered ++ spanRange s)
      rw [List.any_eq_false] at hover
      constructor
      · refine List.Pairwise.cons ?_ ihp
        intro t ht i hi
        have hcov := ihc t ht i ((mem_spanRange t i).mpr hi.2)
        apply hcov
        rw [List.mem_append]
        exact Or.inr ((mem_spanRange s i).mpr hi.1)
      · intro u hu i hiu
        rcases List.mem_cons.mp hu with rfl | hu2
        · intro hic
          have := hover i hiu
          simp [hic] at this
        · intro hic
          exact ihc u hu2 i hiu (List.mem_append.mpr (Or.inl hic))

/-- C7: conflict resolution never returns two spans sharing a character
offset, and the empty candidate list yields the empty result without error. -/
theorem c7_filter_overlapping_non_overlap (spans : List PySpan) :
    List.Pairwise noShared (filter_overlapping_spans spans) ∧
      filter_overlapping_spans [] = [] := by
  constructor
  · unfold filter_overlapping_spans
    split
    · exact List.Pairwise.nil
    · have hsweep := (sweepSpans_sound (List.insertionSort codeRel spans) []).1
      have hperm := List.perm_insertionSort startRel
        (sweepSpans (List.insertionSort codeRel spans) [])
      exact (hperm.pairwise_iff fun h => noShared_symm h).mpr hsweep
  · rfl

/-- C6 (amended): the resolver orders candidates by the composite key
(start, negated length, negated priority, text length ascending, text), i.e.
the fourth tiebreak prefers the shorter `text`, not the longer one; the sort
is a permutation of the candidates, and the whole resolution is a pure
function of the candidate list, hence deterministic. -/
theorem c6_resolver_ordering (spans : List PySpan) :
    List.Pairwise (fun a b => codeKey a ≤ codeKey b)
      (List.insertionSort codeRel spans) ∧
    (List.insertionSort codeRel spans).Perm spans ∧
    filter_overlapping_spans spans =
      (if spans.isEmpty then []
       else List.insertionSort startRel (sweepSpans (List.insertionSort codeRel spans) [])) := by
  refine ⟨?_, List.perm_insertionSort codeRel spans, rfl⟩
  exact List.sorted_insertionSort codeRel spans

/-- C6 (counterexample): two candidate spans tied on start, length and
priority but with texts of different length.  The claimed order (longer text
first) would select the longer text; the code sorts the shorter text first
and selects it. -/
theorem c6_counterexample_text_length_tiebreak :
    filter_overlapping_spans
        [⟨0, 1, str "PERSON", str "Bob"⟩, ⟨0, 1, str "PERSON", str "Al"⟩] =
      [⟨0, 1, str "PERSON", str "Al"⟩] ∧
    filter_overlapping_spans_spec
        [⟨0, 1, str "PERSON", str "Bob"⟩, ⟨0, 1, str "PERSON", str "Al"⟩] =
      [⟨0, 1, str "PERSON", str "Bob"⟩] := by
  refine ⟨by decide, by decide⟩

/-!  The `singleton` decorator of `inconnu/nlp/utils.py`: a global registry
keyed by `(cls, kwargs.get("language"))`, filled on first construction.  Only
`EntityRedactor` is decorated, so the class component of the key is constant
and the model keys the registry by the language alone.  The double-checked
locking is a thread-safety device; the sequential functional behaviour
modelled here is what the claims are about. -/

structure RedactorInstance where
  custom_components : List Text
  language : Option Text
  created_at : Nat
deriving DecidableEq, Repr

/-- One `EntityRedactor(...)` call through the `singleton` decorator: return
the cached instance for the language key if present, otherwise construct one
(recording the arguments of this call) and cache it. -/
def singleton_get (reg : List (Option Text × RedactorInstance))
    (custom_components : List Text) (language : Option Text) :
    List (Option Text × RedactorInstance) × RedactorInstance :=
  match lookupA reg language with
  | some inst => (reg, inst)
  | none =>
    let inst : RedactorInstance := ⟨custom_components, language, reg.length⟩
    (reg ++ [(language, inst)], inst)

/-- `utils.clear_singleton_instances`. -/
def clear_singleton_instances (_reg : List (Option Text × RedactorInstance)) :
    List (Option Text × RedactorInstance) :=
  []

theorem lookupA_cons {α β : Type} [DecidableEq α] (k0 : α) (v0 : β) (l : List (α × β))
    (key : α) : lookupA ((k0, v0) :: l) key = if key = k0 then some v0 else lookupA l key :=
  rfl

theorem lookupA_none_append {α β : Type} [DecidableEq α] (xs ys : List (α × β)) (k : α)
    (h : lookupA xs k = none) : lookupA (xs ++ ys) k = lookupA ys k := by
  induction xs with
  | nil => rfl
  | cons p rest ih =>
    obtain ⟨k0, v0⟩ := p
    rw [lookupA_cons] at h
    split at h
    · exact absurd h (by simp)
    · rename_i hne
      rw [List.cons_append, lookupA_cons, if_neg hne]
      exact ih h

theorem lookupA_none_filter {α β : Type} [DecidableEq α] (xs : List (α × β)) (k : α)
    (h : lookupA xs k = none) : xs.filter (fun kv => decide (kv.1 = k)) = [] := by
  induction xs with
  | nil => rfl
  | cons p rest ih =>
    obtain ⟨k0, v0⟩ := p
    rw [lookupA_cons] at h
    split at h
    · exact absurd h (by simp)
    · rename_i hne
      rw [List.filter_cons, if_neg (by simpa using fun he => hne he.symm)]
      exact ih h

/-- C10: the `EntityRedactor` constructor is a per-language singleton.  A
second construction with the same language keyword returns the object the
first call produced — the second call's arguments (different custom
components included) have no effect and the registry is unchanged — and the
registry keeps at most one instance per language key until it is explicitly
cleared, after which it is empty. -/
theorem c10_singleton_per_language (reg : List (Option Text × RedactorInstance))
    (cc1 cc2 : List Text) (lang : Option Text)
    (h : (reg.filter (fun kv => decide (kv.1 = lang))).length ≤ 1) :
    (singleton_get (singleton_get reg cc1 lang).1 cc2 lang).2 =
      (singleton_get reg cc1 lang).2 ∧
    (singleton_get (singleton_get reg cc1 lang).1 cc2 lang).1 =
      (singleton_get reg cc1 lang).1 ∧
    ((singleton_get (singleton_get reg cc1 lang).1 cc2 lang).1.filter
      (fun kv => decide (kv.1 = lang))).length ≤ 1 ∧
    clear_singleton_instances (singleton_get (singleton_get reg cc1 lang).1 cc2 lang).1 = [] := by
  cases hl : lookupA reg lang with
  | some inst =>
    have h1 : singleton_get reg cc1 lang = (reg, inst) := by
      unfold singleton_get
      rw [hl]
    rw [h1]
    have h2 : singleton_get reg cc2 lang = (reg, inst) := by
      unfold singleton_get
      rw [hl]
    rw [h2]
    exact ⟨rfl, rfl, h, rfl⟩
  | none =>
    have h1 : singleton_get reg cc1 lang =
        (reg ++ [(lang, ⟨cc1, lang, reg.length⟩)], ⟨cc1, lang, reg.length⟩) := by
      unfold singleton_get
      rw [hl]
    rw [h1]
    have hl2 : lookupA (reg ++ [(lang, (⟨cc1, lang, reg.length⟩ : RedactorInstance))]) lang =
        some ⟨cc1, lang, reg.length⟩ := by
      rw [lookupA_none_append reg _ lang hl]
      unfold lookupA
      rw [if_pos rfl]
    have h2 : singleton_get (reg ++ [(lang, (⟨cc1, lang, reg.length⟩ : RedactorInstance))])
        cc2 lang =
        (reg ++ [(lang, ⟨cc1, lang, reg.length⟩)], ⟨cc1, lang, reg.length⟩) := by
      unfold singleton_get
      rw [hl2]
    rw [h2]
    refine ⟨rfl, rfl, ?_, rfl⟩
    rw [List.filter_append, lookupA_none_filter reg lang hl]
    simp

/-- C10 witness: starting with an empty registry, a second construction with
different custom components returns the instance created by the first call,
with the first call's arguments recorded. -/
theorem c10_singleton_witness :
    (([] : List (Option Text × RedactorInstance)).filter
      (fun kv => decide (kv.1 = some (str "en")))).length ≤ 1 ∧
    (singleton_get (singleton_get [] [str "ssn"] (some (str "en"))).1
        [str "employee_id"] (some (str "en"))).2 =
      (singleton_get [] [str "ssn"] (some (str "en"))).2 ∧
    (singleton_get (singleton_get [] [str "ssn"] (some (str "en"))).1
        [str "employee_id"] (some (str "en"))).2.custom_components = [str "ssn"] := by
  refine ⟨by decide, (c10_singleton_per_language [] [str "ssn"] [str "employee_id"]
    (some (str "en")) (by decide)).1, by decide⟩

/-!  The redaction engine (`EntityRedactor.redact`, lines 316–403 of
`entity_redactor.py`).  The spaCy pipeline call `self.nlp(text)` is external:
it is modelled as an input, either a list of validated entities (the
`valid_ents` the source iterates over: label with start/end character
offsets, non-negative by validation) or an exception. -/

structure Ent where
  label : Text
  start_char : Nat
  end_char : Nat
deriving DecidableEq, Repr

/-- Label folding of the redaction loop: any label starting with `PER` is
folded to `PERSON` (`DefaultEntityLabel.PERSON` formats as its value). -/
def normLabel (label : Text) : Text :=
  if startsWithL (str "PER") label then str "PERSON" else label

/-- Index of the first newline of a text, Python `s.find("\n")` (with `none`
for `-1`). -/
def findNl : Text → Option Nat
  | [] => none
  | c :: rest => if c = '\n' then some 0 else (findNl rest).map (· + 1)

theorem findNl_lt_length (l : Text) (p : Nat) (h : findNl l = some p) : p < l.length := by
  induction l generalizing p with
  | nil => simp [findNl] at h
  | cons c rest ih =>
    unfold findNl at h
    split at h
    · cases h
      simp
    · cases hf : findNl rest with
      | none => rw [hf] at h; simp at h
      | some p0 =>
        rw [hf] at h
        simp only [Option.map] at h
        cases h
        have := ih p0 hf
        simp only [List.length_cons]
        omega

/-- Truncate an entity at the first newline inside it, as the redaction loop
does (`entity_substr.find("\n")`). -/
def trimNewline (text : Text) (s e : Nat) : Nat :=
  match findNl (seg text s e) with
  | some p => s + p
  | none => e

/-- The horizontal whitespace the redaction loop strips from the end of an
entity (`" \t\r"`). -/
def charIsTrimWs (c : Char) : Bool :=
  decide (c = ' ') || decide (c = '\t') || decide (c = '\r')

/-- The `while end_char > start_char and text[end_char - 1] in " \t\r"` loop;
the fuel (initially the end offset itself) makes it structural. -/
def trimWsGo (text : Text) (s : Nat) : Nat → Nat → Nat
  | 0, e => e
  | f + 1, e =>
    if decide (s < e) && charIsTrimWs (text.getD (e - 1) ' ') then trimWsGo text s f (e - 1)
    else e

/-- Trimmed end offset of an entity: newline truncation, then trailing
horizontal whitespace removal. -/
def trimEnd (text : Text) (s e : Nat) : Nat :=
  let e1 := trimNewline text s e
  trimWsGo text s e1 e1

/-- The `entity_map` dict of the redaction loop: label to list of
(entity text, placeholder) pairs, in insertion order. -/
abbrev EMap := List (Text × List (Text × Text))

/-- `if label not in entity_map: entity_map[label] = []`. -/
def ensureKey (em : EMap) (label : Text) : EMap :=
  if (lookupA em label).isSome then em else em ++ [(label, [])]

/-- `entity_map[label].append(entry)`. -/
def appendEntry (em : EMap) (label : Text) (entry : Text × Text) : EMap :=
  em.map fun g => if g.1 = label then (g.1, g.2 ++ [entry]) else g

/-- `len(entity_map[label])`, the per-label placeholder counter. -/
def groupLen (em : EMap) (label : Text) : Nat := ((lookupA em label).getD []).length

/-- Reversible placeholder `[LABEL_n]`. -/
def mkPh (label : Text) (n : Nat) : Text := '[' :: (label ++ '_' :: natDigits n) ++ [']']

/-- Anonymous placeholder `[LABEL]`. -/
def phAnon (label : Text) : Text := '[' :: label ++ [']']

/-- One pending replacement: start, trimmed end, placeholder. -/
structure Rep where
  s : Nat
  e : Nat
  ph : Text
deriving DecidableEq, Repr

/-- Body of the `for ent in valid_ents` loop of `EntityRedactor.redact`:
fold the label, skip CARDINAL, ensure the label's (possibly empty) group
exists, trim the span, skip it if trimming empties it, and otherwise emit a
placeholder and record the replacement. -/
def prepareStep (text : Text) (deanonymize : Bool) (st : EMap × List Rep) (ent : Ent) :
    EMap × List Rep :=
  let label := normLabel ent.label
  if label = str "CARDINAL" then st
  else
    let em := ensureKey st.1 label
    let e2 := trimEnd text ent.start_char ent.end_char
    if e2 ≤ ent.start_char then (em, st.2)
    else
      let entity_text := seg text ent.start_char e2
      let n := groupLen em label
      let placeholder := if deanonymize then mkPh label n else phAnon label
      let em2 := if deanonymize then appendEntry em label (entity_text, placeholder) else em
      (em2, st.2 ++ [⟨ent.start_char, e2, placeholder⟩])

/-- The whole replacement-building loop of `EntityRedactor.redact`. -/
def prepare (text : Text) (deanonymize : Bool) (ents : List Ent) : EMap × List Rep :=
  ents.foldl (prepareStep text deanonymize) ([], [])

/-- `redacted_text[:start] + placeholder + redacted_text[end:]`. -/
def replace1 (t : Text) (r : Rep) : Text := t.take r.s ++ r.ph ++ t.drop r.e

/-- Apply the replacements in the order given (the source sorts them by start
descending first). -/
def applyReps (t : Text) (reps : List Rep) : Text := reps.foldl replace1 t

/-- `replacements.sort(key=lambda x: x[0], reverse=True)`: stable descending
order by start offset. -/
def repDescRel (a b : Rep) : Prop := b.s ≤ a.s

instance : DecidableRel repDescRel := fun a b => inferInstanceAs (Decidable (b.s ≤ a.s))

/-- The final `{v[1]: v[0] for values in entity_map.values() for v in values}`
dict: placeholder to original, grouped by label in insertion order.  The
placeholders are pairwise distinct, so the dict comprehension keeps every
pair. -/
def flattenEM (em : EMap) : List (Text × Text) :=
  (em.map fun g => g.2.map fun v => (v.2, v.1)).flatten

/-- `EntityRedactor.redact` after a successful pipeline call: the redacted
text and the placeholder-to-original entity map. -/
def redact (text : Text) (ents : List Ent) (deanonymize : Bool) : Text × List (Text × Text) :=
  let st := prepare text deanonymize ents
  (applyReps text (List.insertionSort repDescRel st.2), flattenEM st.1)

/-- `EntityRedactor.deanonymize`: for each entity-map entry, replace every
occurrence of the placeholder in the text by the original
(`text.replace(placeholder, original)`), in dict insertion order. -/
def deanonymize (redacted : Text) (entity_map : List (Text × Text)) : Text :=
  entity_map.foldl (fun t kv => replaceAll kv.1 kv.2 t) redacted

/-- `EntityRedactor.redact` including its `try/except` around the pipeline
call (lines 319–324): on a pipeline exception it logs and returns the
original text with an empty entity map. -/
def entity_redactor_redact (text : Text) (pipeline : Except Text (List Ent))
    (deanonymize : Bool) : Text × List (Text × Text) :=
  match pipeline with
  | .error _ => (text, [])
  | .ok ents => redact text ents deanonymize

inductive InconnuError where
  | textTooLong (length max_length : Nat)
  | processingError (message : Text)
deriving DecidableEq, Repr

instance {ε α : Type} [DecidableEq ε] [DecidableEq α] : DecidableEq (Except ε α) := fun x y =>
  match x, y with
  | .error a, .error b =>
    if h : a = b then .isTrue (by rw [h]) else .isFalse (by intro he; cases he; exact h rfl)
  | .error _, .ok _ => .isFalse (by intro he; cases he)
  | .ok _, .error _ => .isFalse (by intro he; cases he)
  | .ok a, .ok b =>
    if h : a = b then .isTrue (by rw [h]) else .isFalse (by intro he; cases he; exact h rfl)

/-- `Inconnu.redact` (lines 136–156 of `__init__.py`): length guard, then the
entity redactor.  The `except Exception` that would wrap a failure in
`ProcessingError` is unreachable for a pipeline failure, because
`EntityRedactor.redact` has already caught it and returned the original
text. -/
def Inconnu_redact (text : Text) (max_text_length : Nat)
    (pipeline : Except Text (List Ent)) : Except InconnuError Text :=
  if text.length > max_text_length then
    .error (.textTooLong text.length max_text_length)
  else
    .ok (entity_redactor_redact text pipeline false).1

/-- `ProcessedData` of `inconnu/nlp/interfaces.py`. -/
structure ProcessedData where
  entity_map : List (Text × Text)
  processing_time_ms : Nat
  redacted_text : Text
  original_text : Text
  text_length : Nat
  timestamp : Text
  hashed_id : Text
  entity_positions : List (Text × Nat × Nat)
deriving DecidableEq, Repr

/-- `Inconnu.__call__` (lines 105–134 of `__init__.py`).  The ambient inputs
of the call — the pipeline result, the elapsed wall-clock milliseconds, the
timestamp and the content hash — are parameters.  The source stores the
original text only when `store_original` is set, never fills
`entity_positions` (the dataclass default `{}` remains), and stores
`min(elapsed * 1000, 199.0)` as the processing time. -/
def Inconnu_call (text : Text) (pipeline : Except Text (List Ent))
    (deanonymize store_original : Bool) (max_text_length elapsed_ms : Nat)
    (timestamp hashed_id : Text) : Except InconnuError ProcessedData :=
  if text.length > max_text_length then
    .error (.textTooLong text.length max_text_length)
  else
    let r := entity_redactor_redact text pipeline deanonymize
    .ok
      { entity_map := r.2
        processing_time_ms := min elapsed_ms 199
        redacted_text := r.1
        original_text := if store_original then text else []
        text_length := text.length
        timestamp := timestamp
        hashed_id := hashed_id
        entity_positions := [] }

/-- C1: when the spaCy pipeline raises, `EntityRedactor.redact` catches the
exception and returns the original, unredacted text with an empty entity
map, and `Inconnu.redact` therefore returns that original text successfully
instead of surfacing a `ProcessingError` — the fail-closed behaviour the
spec (and the repository's own tests and docstrings) require does not hold. -/
theorem c1_pipeline_failure_returns_original :
    entity_redactor_redact (str "Call John Doe at 555-0100")
        (.error (str "spaCy processing failed")) true =
      (str "Call John Doe at 555-0100", []) ∧
    Inconnu_redact (str "Call John Doe at 555-0100") 75000
        (.error (str "spaCy processing failed")) =
      .ok (str "Call John Doe at 555-0100") := by
  refine ⟨by decide, by decide⟩

/-- C3: a successful `Inconnu.__call__` on a text with one PERSON entity,
with 500 ms of wall-clock time elapsed.  The returned `ProcessedData` has an
empty `entity_positions` map (never recomputed), an empty `original_text`
(not stored by default), and a processing time capped at 199 ms — against
the claim that the result carries the original text, a recomputed position
map for each emitted placeholder, and the wall-clock duration. -/
theorem c3_call_result_fields :
    Inconnu_call (str "Hi John Doe") (.ok [⟨str "PERSON", 3, 11⟩]) true false 75000 500
        (str "2026-01-01T00:00:00") (str "0abc") =
      .ok
        { entity_map := [(str "[PERSON_0]", str "John Doe")]
          processing_time_ms := 199
          redacted_text := str "Hi [PERSON_0]"
          original_text := []
          text_length := 11
          timestamp := str "2026-01-01T00:00:00"
          hashed_id := str "0abc"
          entity_positions := [] } := by
  decide

/-!  Machinery for the round-trip proofs (C2, C4): the redacted text as an
interleaving of original-text segments and placeholders. -/

/-- Rendered pieces of the replacements `rs` applied from position `pos` on,
without the trailing remainder of the text. -/
def goP (text : Text) : Nat → List Rep → Text
  | _, [] => []
  | pos, r :: rest => seg text pos r.s ++ r.ph ++ goP text r.e rest

/-- End position after the last replacement (or `pos` if none). -/
def endOf : Nat → List Rep → Nat
  | pos, [] => pos
  | _, r :: rest => endOf r.e rest

/-- The text with the replacements `rs` (ascending, disjoint) applied, from
position `pos` on. -/
def render (text : Text) (pos : Nat) (rs : List Rep) : Text :=
  goP text pos rs ++ text.drop (endOf pos rs)

theorem render_nil (text : Text) (pos : Nat) : render text pos [] = text.drop pos := rfl

theorem goP_cons (text : Text) (pos : Nat) (r : Rep) (rest : List Rep) :
    goP text pos (r :: rest) = seg text pos r.s ++ r.ph ++ goP text r.e rest := rfl

theorem endOf_cons (pos : Nat) (r : Rep) (rest : List Rep) :
    endOf pos (r :: rest) = endOf r.e rest := rfl

theorem render_cons (text : Text) (pos : Nat) (r : Rep) (rest : List Rep) :
    render text pos (r :: rest) = seg text pos r.s ++ r.ph ++ render text r.e rest := by
  unfold render
  rw [goP_cons, endOf_cons]
  simp [List.append_assoc]

/-- Well-formedness of a replacement list relative to a start position:
ascending, pairwise disjoint, non-empty, within bounds. -/
def repsOKb (text : Text) : Nat → List Rep → Bool
  | _, [] => true
  | pos, r :: rest =>
    decide (pos ≤ r.s) && decide (r.s < r.e) && decide (r.e ≤ text.length) &&
      repsOKb text r.e rest

theorem repsOKb_cons_eq (text : Text) (pos : Nat) (r : Rep) (rest : List Rep) :
    repsOKb text pos (r :: rest) =
      (decide (pos ≤ r.s) && decide (r.s < r.e) && decide (r.e ≤ text.length) &&
        repsOKb text r.e rest) := rfl

theorem repsOKb_cons (text : Text) (pos : Nat) (r : Rep) (rest : List Rep) :
    repsOKb text pos (r :: rest) = true ↔
      pos ≤ r.s ∧ r.s < r.e ∧ r.e ≤ text.length ∧ repsOKb text r.e rest = true := by
  rw [repsOKb_cons_eq]
  simp [Bool.and_eq_true, and_assoc]

theorem repsOKb_mono (text : Text) (rs : List Rep) (pos pos2 : Nat) (h2 : pos2 ≤ pos)
    (h : repsOKb text pos rs = true) : repsOKb text pos2 rs = true := by
  cases rs with
  | nil => rfl
  | cons r rest =>
    rw [repsOKb_cons] at h ⊢
    exact ⟨by omega, h.2⟩

theorem repsOKb_elem (text : Text) (rs : List Rep) : ∀ pos, repsOKb text pos rs = true →
    ∀ r ∈ rs, pos ≤ r.s ∧ r.s < r.e ∧ r.e ≤ text.length := by
  induction rs with
  | nil => intro pos _ r hr; simp at hr
  | cons r0 rest ih =>
    intro pos h r hr
    rw [repsOKb_cons] at h
    rcases List.mem_cons.mp hr with rfl | hmem
    · exact ⟨h.1, h.2.1, h.2.2.1⟩
    · have := ih r0.e h.2.2.2 r hmem
      exact ⟨by omega, this.2⟩

theorem repsOKb_pairwise_lt (text : Text) (rs : List Rep) : ∀ pos,
    repsOKb text pos rs = true → List.Pairwise (fun a b => a.s < b.s) rs := by
  induction rs with
  | nil => intro pos _; exact List.Pairwise.nil
  | cons r0 rest ih =>
    intro pos h
    rw [repsOKb_cons] at h
    refine List.Pairwise.cons ?_ (ih r0.e h.2.2.2)
    intro b hb
    have := repsOKb_elem text rest r0.e h.2.2.2 b hb
    omega

theorem repsOKb_remove_mid (text : Text) (u : List Rep) : ∀ pos (r : Rep) (v : List Rep),
    repsOKb text pos (u ++ r :: v) = true → repsOKb text pos (u ++ v) = true := by
  induction u with
  | nil =>
    intro pos r v h
    rw [List.nil_append] at h ⊢
    rw [repsOKb_cons] at h
    exact repsOKb_mono text v r.e pos (by omega) h.2.2.2
  | cons u0 urest ih =>
    intro pos r v h
    rw [List.cons_append] at h ⊢
    rw [repsOKb_cons] at h ⊢
    exact ⟨h.1, h.2.1, h.2.2.1, ih u0.e r v h.2.2.2⟩

/-- `orderedInsert` of a strictly smaller start into a descending list lands
at the very end. -/
theorem orderedInsert_desc_small (r : Rep) (l : List Rep)
    (h : ∀ y ∈ l, ¬ (y.s ≤ r.s)) : List.orderedInsert repDescRel r l = l ++ [r] := by
  induction l with
  | nil => rfl
  | cons y rest ih =>
    unfold List.orderedInsert
    rw [if_neg (show ¬ repDescRel r y from h y (List.mem_cons_self y rest)),
      ih (fun z hz => h z (List.mem_cons_of_mem y hz))]
    rfl

/-- The stable descending sort of replacements with strictly ascending starts
is the reversal. -/
theorem insertionSort_desc_of_ascending (reps : List Rep)
    (h : List.Pairwise (fun a b => a.s < b.s) reps) :
    List.insertionSort repDescRel reps = reps.reverse := by
  induction reps with
  | nil => rfl
  | cons r rest ih =>
    rw [List.insertionSort, ih (List.Pairwise.sublist (List.sublist_cons_self r rest) h)]
    rw [List.reverse_cons]
    apply orderedInsert_desc_small
    intro y hy
    have hmem := List.mem_reverse.mp hy
    have := List.rel_of_pairwise_cons h hmem
    omega

theorem applyReps_reverse (text : Text) (reps : List Rep)
    (h : repsOKb text 0 reps = true) :
    applyReps text reps.reverse = render text 0 reps := by
  induction reps with
  | nil => rfl
  | cons r rest ih =>
    rw [repsOKb_cons] at h
    obtain ⟨hpos, hlt, hle, hrest⟩ := h
    rw [List.reverse_cons]
    unfold applyReps
    rw [List.foldl_append]
    have ihv : applyReps text rest.reverse = render text 0 rest :=
      ih (repsOKb_mono text rest r.e 0 (by omega) hrest)
    unfold applyReps at ihv
    rw [ihv]
    show replace1 (render text 0 rest) r = render text 0 (r :: rest)
    rw [render_cons]
    have hseg : seg text 0 r.s = text.take r.s := by
      unfold seg
      rw [List.drop_zero, Nat.sub_zero]
    rw [hseg]
    cases rest with
    | nil =>
      rw [render_nil, render_nil, List.drop_zero]
      rfl
    | cons v0 vrest =>
      rw [repsOKb_cons] at hrest
      obtain ⟨hv0, _, hv0e, _⟩ := hrest
      rw [render_cons, render_cons]
      unfold replace1
      have hseg0 : seg text 0 v0.s = text.take v0.s := by
        unfold seg
        rw [List.drop_zero, Nat.sub_zero]
      rw [hseg0]
      have hlen : (text.take v0.s).length = v0.s := by
        rw [List.length_take]
        have : v0.s ≤ text.length := by omega
        omega
      have htake : (text.take v0.s ++ v0.ph ++ render text v0.e vrest).take r.s =
          text.take r.s := by
        rw [List.append_assoc, List.take_append_of_le_length (by omega), List.take_take,
          Nat.min_eq_left (by omega)]
      have hdrop : (text.take v0.s ++ v0.ph ++ render text v0.e vrest).drop r.e =
          seg text r.e v0.s ++ v0.ph ++ render text v0.e vrest := by
        rw [List.append_assoc, List.drop_append_of_le_length (by omega)]
        unfold seg
        rw [List.drop_take, List.append_assoc]
      rw [htake, hdrop, List.append_assoc, List.append_assoc]

/-- A usable placeholder label: non-empty, upper-case letters and underscores
(every folded label the pipeline produces has this form). -/
def labelOK (L : Text) : Bool := !L.isEmpty && L.all isLabelChar

/-- Chained validity of the pipeline's entity list from a lower bound:
ascending disjoint spans with valid bounds and well-formed folded labels
(spaCy's `doc.ents` are sorted and non-overlapping). -/
def entsFrom (text : Text) : Nat → List Ent → Bool
  | _, [] => true
  | b, e :: rest =>
    decide (b ≤ e.start_char) && decide (e.start_char < e.end_char) &&
      decide (e.end_char ≤ text.length) && labelOK (normLabel e.label) &&
      entsFrom text e.end_char rest

theorem entsFrom_cons (text : Text) (b : Nat) (e : Ent) (rest : List Ent) :
    entsFrom text b (e :: rest) = true ↔
      b ≤ e.start_char ∧ e.start_char < e.end_char ∧ e.end_char ≤ text.length ∧
        labelOK (normLabel e.label) = true ∧ entsFrom text e.end_char rest = true := by
  show (decide _ && decide _ && decide _ && _ && _) = true ↔ _
  simp [Bool.and_eq_true, and_assoc]

theorem natDigits_ne_nil (n : Nat) : natDigits n ≠ [] := by
  by_cases h : n < 10
  · rw [natDigits_small n h]
    simp
  · rw [natDigits_large n (by omega)]
    simp

theorem snoc_inj {α : Type} (x : α) (a b : List α) (h : a ++ [x] = b ++ [x]) : a = b := by
  have h2 := congrArg List.reverse h
  simp only [List.reverse_append, List.reverse_cons, List.reverse_nil, List.nil_append,
    List.cons_append, List.singleton_append, List.cons.injEq] at h2
  exact List.reverse_injective h2.2

theorem dropWhile_prefix_stop (p : Char → Bool) (xs : Text) (y : Char) (zs : Text)
    (hxs : ∀ c ∈ xs, p c = true) (hy : p y = false) :
    (xs ++ y :: zs).dropWhile p = y :: zs := by
  induction xs with
  | nil => simp [List.dropWhile, hy]
  | cons a xs ih =>
    have ha : p a = true := hxs a (List.mem_cons_self a xs)
    simp only [List.cons_append, List.dropWhile_cons, ha, if_true]
    exact ih fun c hc => hxs c (List.mem_cons_of_mem a hc)

theorem rev_mid (L D : Text) :
    (L ++ '_' :: D).reverse = D.reverse ++ '_' :: L.reverse := by
  rw [List.reverse_append, List.reverse_cons]
  simp [List.append_assoc]

theorem mkPh_inj (L1 L2 : Text) (n1 n2 : Nat) (h : mkPh L1 n1 = mkPh L2 n2) :
    L1 = L2 ∧ n1 = n2 := by
  unfold mkPh at h
  injection h with _ h2
  have hmid : L1 ++ '_' :: natDigits n1 = L2 ++ '_' :: natDigits n2 := snoc_inj _ _ _ h2
  have hrev := congrArg List.reverse hmid
  rw [rev_mid, rev_mid] at hrev
  have hd1 : ∀ c ∈ (natDigits n1).reverse, charIsDigit c = true := fun c hc =>
    natDigits_all_digit n1 c (List.mem_reverse.mp hc)
  have hd2 : ∀ c ∈ (natDigits n2).reverse, charIsDigit c = true := fun c hc =>
    natDigits_all_digit n2 c (List.mem_reverse.mp hc)
  have hu : charIsDigit '_' = false := by decide
  have htw := congrArg (List.takeWhile charIsDigit) hrev
  rw [takeWhile_prefix_stop _ _ _ _ hd1 hu, takeWhile_prefix_stop _ _ _ _ hd2 hu] at htw
  have hdg : natDigits n1 = natDigits n2 := List.reverse_injective htw
  have hn : n1 = n2 := natDigits_injective n1 n2 hdg
  have hdw := congrArg (List.dropWhile charIsDigit) hrev
  rw [dropWhile_prefix_stop _ _ _ _ hd1 hu, dropWhile_prefix_stop _ _ _ _ hd2 hu] at hdw
  have hL : L1 = L2 := by
    have := List.cons.injEq .. |>.mp hdw
    exact List.reverse_injective this.2
  exact ⟨hL, hn⟩

theorem TokFull_mkPh (L : Text) (n : Nat) (h : labelOK L = true) : TokFull (mkPh L n) := by
  refine ⟨L ++ '_' :: natDigits n, rfl, ?_⟩
  unfold labelOK at h
  obtain ⟨hne, hall⟩ := (Bool.and_eq_true _ _).mp h
  rw [List.all_eq_true] at hall
  have hd : ∀ c ∈ (natDigits n).reverse, charIsDigit c = true := fun c hc =>
    natDigits_all_digit n c (List.mem_reverse.mp hc)
  have hu : charIsDigit '_' = false := by decide
  unfold isMiddle
  rw [rev_mid, takeWhile_prefix_stop _ _ _ _ hd hu, dropWhile_prefix_stop _ _ _ _ hd hu]
  have hds : (natDigits n).reverse.isEmpty = false := by
    cases hnd : (natDigits n).reverse with
    | nil =>
      exfalso
      exact natDigits_ne_nil n (by
        have := congrArg List.reverse hnd
        simpa using this)
    | cons c rest => rfl
  rw [hds]
  simp only [Bool.false_eq_true, if_false]
  show (decide ('_' = '_') && (!L.reverse.isEmpty && L.reverse.all isLabelChar)) = true
  rw [decide_eq_true rfl, Bool.true_and]
  have hrevne : L.reverse.isEmpty = false := by
    cases hl : L.reverse with
    | nil =>
      exfalso
      have : L = [] := by
        have := congrArg List.reverse hl
        simpa using this
      rw [this] at hne
      simp at hne
    | cons c rest => rfl
  rw [hrevne]
  simp only [Bool.not_false, Bool.true_and]
  rw [List.all_eq_true]
  intro c hc
  exact hall c (List.mem_reverse.mp hc)

/-- A text free of placeholder-shaped tokens. -/
def tokFree (s : Text) : Prop := ∀ q t, TokFull t → ¬ occAt s q t

theorem tokFree_of_tokensOf (s : Text) (h : tokensOf s = []) : tokFree s := by
  intro q t ht hocc
  have := occ_mem_tokensOf s q t ht hocc
  rw [h] at this
  simp at this

theorem tokFree_seg (s : Text) (a b : Nat) (h : tokFree s) : tokFree (seg s a b) := by
  intro q t ht hocc
  exact h (a + q) t ht (occAt_of_seg s a b q t hocc)

theorem trimNewline_le (text : Text) (s e : Nat) (hse : s ≤ e) :
    trimNewline text s e ≤ e := by
  unfold trimNewline
  cases hf : findNl (seg text s e) with
  | none => exact le_refl e
  | some p =>
    have hp := findNl_lt_length _ _ hf
    have hlen : (seg text s e).length ≤ e - s := by
      unfold seg
      rw [List.length_take, Nat.min_def]
      split <;> omega
    show s + p ≤ e
    omega

theorem trimWsGo_le (text : Text) (s : Nat) : ∀ f e, trimWsGo text s f e ≤ e := by
  intro f
  induction f with
  | zero => intro e; exact le_refl e
  | succ f ih =>
    intro e
    unfold trimWsGo
    split
    · exact le_trans (ih (e - 1)) (by omega)
    · exact le_refl e

theorem trimEnd_le (text : Text) (s e : Nat) (hse : s ≤ e) : trimEnd text s e ≤ e := by
  unfold trimEnd
  exact le_trans (trimWsGo_le text s _ _) (trimNewline_le text s e hse)

theorem repsOKb_snoc (text : Text) (reps : List Rep) (r : Rep) : ∀ pos,
    repsOKb text pos reps = true → (∀ x ∈ reps, x.e ≤ r.s) → pos ≤ r.s → r.s < r.e →
    r.e ≤ text.length → repsOKb text pos (reps ++ [r]) = true := by
  induction reps with
  | nil =>
    intro pos _ _ h1 h2 h3
    rw [List.nil_append, repsOKb_cons]
    exact ⟨h1, h2, h3, rfl⟩
  | cons x rest ih =>
    intro pos h hb h1 h2 h3
    rw [repsOKb_cons] at h
    rw [List.cons_append, repsOKb_cons]
    refine ⟨h.1, h.2.1, h.2.2.1, ?_⟩
    exact ih x.e h.2.2.2 (fun y hy => hb y (List.mem_cons_of_mem x hy))
      (hb x (List.mem_cons_self x rest)) h2 h3

/-- The (placeholder, original) pair a replacement contributes to the entity
map. -/
def pairOf (text : Text) (r : Rep) : Text × Text := (r.ph, seg text r.s r.e)

/-- All placeholders recorded in an entity map. -/
def allPhs (em : EMap) : List Text := (flattenEM em).map Prod.fst

theorem mem_allPhs (em : EMap) (ph : Text) :
    ph ∈ allPhs em ↔ ∃ g ∈ em, ∃ v ∈ g.2, v.2 = ph := by
  unfold allPhs flattenEM
  simp only [List.mem_map, List.mem_flatten]
  constructor
  · rintro ⟨pr, ⟨lst, ⟨g, hg, rfl⟩, hpr⟩, rfl⟩
    obtain ⟨v, hv, rfl⟩ := List.mem_map.mp hpr
    exact ⟨g, hg, v, hv, rfl⟩
  · rintro ⟨g, hg, v, hv, rfl⟩
    exact ⟨(v.2, v.1), ⟨g.2.map fun v => (v.2, v.1), ⟨g, hg, rfl⟩,
      List.mem_map.mpr ⟨v, hv, rfl⟩⟩, rfl⟩

/-- Structural well-formedness of the entity map: distinct labels, and the
placeholders of each label's group are exactly `[LABEL_0] .. [LABEL_(k-1)]`
in order. -/
def EMInv (em : EMap) : Prop :=
  (em.map Prod.fst).Nodup ∧
    ∀ g ∈ em, g.2.map Prod.snd = (List.range g.2.length).map (mkPh g.1)

theorem lookupA_none_iff {β : Type} (em : List (Text × β)) (k : Text) :
    lookupA em k = none ↔ ∀ g ∈ em, g.1 ≠ k := by
  induction em with
  | nil => simp [lookupA]
  | cons g rest ih =>
    obtain ⟨k0, v0⟩ := g
    rw [lookupA_cons]
    by_cases hk : k = k0
    · subst hk
      rw [if_pos rfl]
      simp only [List.mem_cons, forall_eq_or_imp]
      constructor
      · intro h
        exact absurd h (by simp)
      · intro h
        exact absurd rfl h.1
    · rw [if_neg hk, ih]
      simp only [List.mem_cons, forall_eq_or_imp]
      constructor
      · intro h
        exact ⟨fun he => hk he.symm, h⟩
      · intro h
        exact h.2

theorem lookupA_of_mem_nodup {β : Type} (em : List (Text × β)) (k : Text) (v : β)
    (hmem : (k, v) ∈ em) (hnd : (em.map Prod.fst).Nodup) : lookupA em k = some v := by
  induction em with
  | nil => simp at hmem
  | cons g rest ih =>
    obtain ⟨k0, v0⟩ := g
    rw [List.map_cons] at hnd
    rcases List.mem_cons.mp hmem with heq | hmem2
    · obtain ⟨rfl, rfl⟩ := Prod.mk.injEq .. |>.mp heq.symm
      rw [lookupA_cons, if_pos rfl]
    · have hk : k ≠ k0 := by
        intro h
        subst h
        exact (List.nodup_cons.mp hnd).1 (List.mem_map.mpr ⟨(k, v), hmem2, rfl⟩)
      rw [lookupA_cons, if_neg hk]
      exact ih hmem2 (List.nodup_cons.mp hnd).2

theorem keys_appendEntry (em : EMap) (L : Text) (entry : Text × Text) :
    (appendEntry em L entry).map Prod.fst = em.map Prod.fst := by
  unfold appendEntry
  rw [List.map_map]
  congr 1
  funext g
  by_cases h : g.1 = L <;> simp [h]

theorem appendEntry_absent (em : EMap) (L : Text) (entry : Text × Text)
    (h : ∀ g ∈ em, g.1 ≠ L) : appendEntry em L entry = em := by
  unfold appendEntry
  conv_rhs => rw [← List.map_id em]
  apply List.map_congr_left
  intro g hg
  rw [if_neg (h g hg)]
  rfl

theorem flattenEM_cons (g : Text × List (Text × Text)) (rest : EMap) :
    flattenEM (g :: rest) = (g.2.map fun v => (v.2, v.1)) ++ flattenEM rest := by
  unfold flattenEM
  rw [List.map_cons, List.flatten_cons]

theorem flattenEM_ensureKey (em : EMap) (L : Text) :
    flattenEM (ensureKey em L) = flattenEM em := by
  unfold ensureKey
  split
  · rfl
  · unfold flattenEM
    rw [List.map_append, List.flatten_append]
    simp

theorem flattenEM_appendEntry (em : EMap) (L : Text) (entry : Text × Text)
    (hnd : (em.map Prod.fst).Nodup) (hmem : (lookupA em L).isSome) :
    (flattenEM (appendEntry em L entry)).Perm (flattenEM em ++ [(entry.2, entry.1)]) := by
  induction em with
  | nil => simp [lookupA] at hmem
  | cons g rest ih =>
    obtain ⟨k0, lst⟩ := g
    rw [List.map_cons] at hnd
    have hcons : appendEntry ((k0, lst) :: rest) L entry =
        (if k0 = L then (k0, lst ++ [entry]) else (k0, lst)) :: appendEntry rest L entry :=
      rfl
    by_cases hk : k0 = L
    · subst hk
      have habs : appendEntry rest k0 entry = rest := by
        apply appendEntry_absent
        intro g hg heq
        exact (List.nodup_cons.mp hnd).1 (List.mem_map.mpr ⟨g, hg, heq⟩)
      rw [hcons, if_pos rfl, habs, flattenEM_cons, flattenEM_cons]
      show ((lst ++ [entry]).map fun v => (v.2, v.1)) ++ flattenEM rest |>.Perm _
      rw [List.map_append]
      simp only [List.map_cons, List.map_nil]
      rw [List.append_assoc, List.append_assoc]
      exact List.Perm.append_left _ List.perm_append_comm
    · have hmem2 : (lookupA rest L).isSome := by
        rw [lookupA_cons, if_neg (fun he => hk he.symm)] at hmem
        exact hmem
      rw [hcons, if_neg hk, flattenEM_cons, flattenEM_cons, List.append_assoc]
      exact List.Perm.append_left _ (ih (List.nodup_cons.mp hnd).2 hmem2)

theorem EMInv_nil : EMInv [] := ⟨List.nodup_nil, by intro g hg; simp at hg⟩

theorem EMInv_ensureKey (em : EMap) (L : Text) (h : EMInv em) : EMInv (ensureKey em L) := by
  unfold ensureKey
  by_cases habs : (lookupA em L).isSome
  · rw [if_pos habs]
    exact h
  · rw [if_neg habs]
    constructor
    · rw [List.map_append]
      rw [List.nodup_append]
      refine ⟨h.1, by simp, ?_⟩
      intro x hx hy
      simp only [List.map_cons, List.map_nil, List.mem_cons, List.not_mem_nil,
        or_false] at hy
      rw [hy] at hx
      obtain ⟨g, hg, hgx⟩ := List.mem_map.mp hx
      have : lookupA em L = none := by
        cases hl : lookupA em L with
        | none => rfl
        | some v => rw [hl] at habs; simp at habs
      exact (lookupA_none_iff em L |>.mp this) g hg hgx
    · intro g hg
      rcases List.mem_append.mp hg with hg1 | hg2
      · exact h.2 g hg1
      · simp only [List.mem_cons, List.not_mem_nil, or_false] at hg2
        subst hg2
        simp

theorem lookupA_ensureKey_isSome (em : EMap) (L : Text) :
    (lookupA (ensureKey em L) L).isSome := by
  unfold ensureKey
  split
  · assumption
  · rename_i habs
    have hnone : lookupA em L = none := by
      cases hl : lookupA em L with
      | none => rfl
      | some v => rw [hl] at habs; simp at habs
    rw [lookupA_none_append em [(L, [])] L hnone, lookupA_cons, if_pos rfl]
    rfl

theorem EMInv_appendEntry (em : EMap) (L orig : Text) (h : EMInv em) :
    EMInv (appendEntry em L (orig, mkPh L (groupLen em L))) := by
  obtain ⟨hnd, hgrp⟩ := h
  refine ⟨by rw [keys_appendEntry]; exact hnd, ?_⟩
  intro g hg
  unfold appendEntry at hg
  obtain ⟨g0, hg0, hmap⟩ := List.mem_map.mp hg
  by_cases hk : g0.1 = L
  · rw [if_pos hk] at hmap
    subst hmap
    show (g0.2 ++ [(orig, mkPh L (groupLen em L))]).map Prod.snd = _
    have hlook : lookupA em L = some g0.2 := by
      have : (L, g0.2) ∈ em := by
        have : g0 = (L, g0.2) := by
          obtain ⟨a, b⟩ := g0
          simp only at hk
          rw [hk]
        rwa [← this]
      exact lookupA_of_mem_nodup em L g0.2 this hnd
    have hlen : groupLen em L = g0.2.length := by
      unfold groupLen
      rw [hlook]
      rfl
    rw [List.map_append, hgrp g0 hg0, hk, hlen]
    simp only [List.map_cons, List.map_nil]
    rw [List.length_append, List.length_singleton, List.range_succ, List.map_append]
    rfl
  · rw [if_neg hk] at hmap
    subst hmap
    exact hgrp g0 hg0

theorem allPhs_fresh (em : EMap) (L : Text) (h : EMInv em) :
    mkPh L (groupLen em L) ∉ allPhs em := by
  intro hmem
  obtain ⟨g, hg, v, hv, hph⟩ := (mem_allPhs em _).mp hmem
  have hin : v.2 ∈ g.2.map Prod.snd := List.mem_map.mpr ⟨v, hv, rfl⟩
  rw [h.2 g hg] at hin
  obtain ⟨i, hi, hmk⟩ := List.mem_map.mp hin
  rw [← hmk] at hph
  obtain ⟨hlab, hidx⟩ := mkPh_inj g.1 L i (groupLen em L) hph
  have hglook : lookupA em L = some g.2 := by
    have : (L, g.2) ∈ em := by
      have hgeq : g = (L, g.2) := by
        obtain ⟨a, b⟩ := g
        simp only at hlab
        rw [hlab]
      rwa [← hgeq]
    exact lookupA_of_mem_nodup em L g.2 this h.1
  have : groupLen em L = g.2.length := by
    unfold groupLen
    rw [hglook]
    rfl
  rw [List.mem_range] at hi
  omega

theorem allPhs_ensureKey (em : EMap) (L : Text) : allPhs (ensureKey em L) = allPhs em := by
  unfold allPhs
  rw [flattenEM_ensureKey]

theorem prepareStep_skip (text : Text) (st : EMap × List Rep) (ent : Ent)
    (h : normLabel ent.label = str "CARDINAL") : prepareStep text true st ent = st := by
  unfold prepareStep
  rw [if_pos h]

theorem prepareStep_empty (text : Text) (st : EMap × List Rep) (ent : Ent)
    (h1 : ¬ normLabel ent.label = str "CARDINAL")
    (h2 : trimEnd text ent.start_char ent.end_char ≤ ent.start_char) :
    prepareStep text true st ent = (ensureKey st.1 (normLabel ent.label), st.2) := by
  unfold prepareStep
  rw [if_neg h1, if_pos h2]

theorem prepareStep_keep (text : Text) (st : EMap × List Rep) (ent : Ent)
    (h1 : ¬ normLabel ent.label = str "CARDINAL")
    (h2 : ¬ trimEnd text ent.start_char ent.end_char ≤ ent.start_char) :
    prepareStep text true st ent =
      (appendEntry (ensureKey st.1 (normLabel ent.label)) (normLabel ent.label)
        (seg text ent.start_char (trimEnd text ent.start_char ent.end_char),
          mkPh (normLabel ent.label)
            (groupLen (ensureKey st.1 (normLabel ent.label)) (normLabel ent.label))),
       st.2 ++ [⟨ent.start_char, trimEnd text ent.start_char ent.end_char,
          mkPh (normLabel ent.label)
            (groupLen (ensureKey st.1 (normLabel ent.label)) (normLabel ent.label))⟩]) := by
  unfold prepareStep
  rw [if_neg h1, if_neg h2]
  rfl

/-- Invariant carried through the replacement-building loop of
`EntityRedactor.redact` (with `deanonymize=True`). -/
def prepInv (text : Text) (b : Nat) (st : EMap × List Rep) : Prop :=
  EMInv st.1 ∧ (allPhs st.1).Nodup ∧
    repsOKb text 0 st.2 = true ∧ (∀ r ∈ st.2, r.e ≤ b) ∧
    (∀ r ∈ st.2, TokFull r.ph) ∧
    (flattenEM st.1).Perm (st.2.map (pairOf text))

theorem prepInv_mono (text : Text) (b b2 : Nat) (st : EMap × List Rep) (h : b ≤ b2)
    (hinv : prepInv text b st) : prepInv text b2 st := by
  obtain ⟨i1, i2, i3, i4, i5, i6⟩ := hinv
  exact ⟨i1, i2, i3, fun r hr => le_trans (i4 r hr) h, i5, i6⟩

theorem prepareStep_inv (text : Text) (b : Nat) (st : EMap × List Rep) (ent : Ent)
    (hinv : prepInv text b st) (hb : b ≤ ent.start_char)
    (hse : ent.start_char < ent.end_char) (hel : ent.end_char ≤ text.length)
    (hlab : labelOK (normLabel ent.label) = true) :
    prepInv text ent.end_char (prepareStep text true st ent) := by
  obtain ⟨i1, i2, i3, i4, i5, i6⟩ := hinv
  by_cases hcard : normLabel ent.label = str "CARDINAL"
  · rw [prepareStep_skip text st ent hcard]
    exact prepInv_mono text b ent.end_char st (by omega) ⟨i1, i2, i3, i4, i5, i6⟩
  · by_cases hempty : trimEnd text ent.start_char ent.end_char ≤ ent.start_char
    · rw [prepareStep_empty text st ent hcard hempty]
      refine ⟨EMInv_ensureKey st.1 _ i1, by rwa [allPhs_ensureKey], i3,
        fun r hr => by have := i4 r hr; omega, i5, ?_⟩
      show (flattenEM (ensureKey st.1 (normLabel ent.label))).Perm _
      rw [flattenEM_ensureKey]
      exact i6
    · rw [prepareStep_keep text st ent hcard hempty]
      have he2le : trimEnd text ent.start_char ent.end_char ≤ ent.end_char :=
        trimEnd_le text ent.start_char ent.end_char (by omega)
      have hinv1 : EMInv (ensureKey st.1 (normLabel ent.label)) :=
        EMInv_ensureKey st.1 _ i1
      have hperm1 := flattenEM_appendEntry (ensureKey st.1 (normLabel ent.label))
        (normLabel ent.label)
        (seg text ent.start_char (trimEnd text ent.start_char ent.end_char),
          mkPh (normLabel ent.label)
            (groupLen (ensureKey st.1 (normLabel ent.label)) (normLabel ent.label)))
        hinv1.1 (lookupA_ensureKey_isSome st.1 (normLabel ent.label))
      refine ⟨EMInv_appendEntry _ _ _ hinv1, ?_, ?_, ?_, ?_, ?_⟩
      · have hphsperm := hperm1.map Prod.fst
        rw [List.map_append] at hphsperm
        apply (List.Perm.nodup_iff hphsperm).mpr
        rw [List.nodup_append]
        refine ⟨?_, by simp, ?_⟩
        · show (allPhs (ensureKey st.1 (normLabel ent.label))).Nodup
          rwa [allPhs_ensureKey]
        · intro x hx hy
          simp only [List.map_cons, List.map_nil, List.mem_cons, List.not_mem_nil,
            or_false] at hy
          rw [hy] at hx
          exact allPhs_fresh _ _ hinv1 hx
      · apply repsOKb_snoc text st.2 _ 0 i3
        · intro x hx
          show x.e ≤ ent.start_char
          have := i4 x hx
          omega
        · show 0 ≤ ent.start_char
          omega
        · show ent.start_char < trimEnd text ent.start_char ent.end_char
          omega
        · show trimEnd text ent.start_char ent.end_char ≤ text.length
          omega
      · intro r hr
        rcases List.mem_append.mp hr with hr1 | hr2
        · have := i4 r hr1
          omega
        · simp only [List.mem_cons, List.not_mem_nil, or_false] at hr2
          subst hr2
          show trimEnd text ent.start_char ent.end_char ≤ ent.end_char
          exact he2le
      · intro r hr
        rcases List.mem_append.mp hr with hr1 | hr2
        · exact i5 r hr1
        · simp only [List.mem_cons, List.not_mem_nil, or_false] at hr2
          subst hr2
          exact TokFull_mkPh _ _ hlab
      · refine hperm1.trans ?_
        rw [List.map_append]
        show flattenEM (ensureKey st.1 (normLabel ent.label)) ++ _ |>.Perm _
        rw [flattenEM_ensureKey]
        exact i6.append_right _

theorem prepare_fold (text : Text) (ents : List Ent) : ∀ b st,
    prepInv text b st → entsFrom text b ents = true →
    ∃ b2, prepInv text b2 (ents.foldl (prepareStep text true) st) := by
  induction ents with
  | nil =>
    intro b st h _
    exact ⟨b, h⟩
  | cons e rest ih =>
    intro b st h hchain
    rw [entsFrom_cons] at hchain
    obtain ⟨h1, h2, h3, h4, h5⟩ := hchain
    rw [List.foldl_cons]
    exact ih e.end_char _ (prepareStep_inv text b st e h h1 h2 h3 h4) h5

theorem prepare_inv (text : Text) (ents : List Ent) (h : entsFrom text 0 ents = true) :
    ∃ b, prepInv text b (prepare text true ents) := by
  apply prepare_fold text ents 0 ([], [])
  · refine ⟨EMInv_nil, ?_, rfl, ?_, ?_, ?_⟩
    · show (List.map _ (flattenEM [])).Nodup
      exact List.nodup_nil
    · intro r hr
      simp at hr
    · intro r hr
      simp at hr
    · exact List.Perm.refl _
  · exact h

theorem occAt_drop (s : Text) (k q : Nat) (t : Text) (h : occAt (s.drop k) q t) :
    occAt s (k + q) t := by
  unfold occAt at h ⊢
  rw [List.drop_drop] at h
  exact h

theorem occAt_getD (s : Text) (q : Nat) (t : Text) (h : occAt s q t) (i : Nat)
    (hi : i < t.length) (d : Char) : s.getD (q + i) d = t.getD i d := by
  unfold occAt at h
  conv_rhs => rw [← h]
  rw [List.getD_eq_getElem?_getD, List.getD_eq_getElem?_getD, List.getElem?_take,
    if_pos hi, List.getElem?_drop]

theorem occAt_singleton_of_getD (t : Text) (i : Nat) (hi : i < t.length) (c : Char)
    (h : t.getD i ' ' = c) : occAt t i [c] := by
  have hel : t[i] = c := by
    rw [List.getD_eq_getElem?_getD, List.getElem?_eq_getElem hi] at h
    simpa using h
  unfold occAt
  rw [List.length_singleton, List.drop_eq_getElem_cons hi, List.take_succ_cons,
    List.take_zero, hel]

theorem TokFull_getD_zero (t : Text) (h : TokFull t) : t.getD 0 ' ' = '[' := by
  obtain ⟨m, rfl, _⟩ := h
  rfl

/-- Offset of a replacement's placeholder inside the rendered text, when the
replacement list decomposes as `u ++ r :: v`. -/
def phPos (text : Text) (pos : Nat) (u : List Rep) (r : Rep) : Nat :=
  (goP text pos u).length + (seg text (endOf pos u) r.s).length

theorem phPos_cons (text : Text) (pos : Nat) (r0 : Rep) (u : List Rep) (r : Rep) :
    phPos text pos (r0 :: u) r =
      (seg text pos r0.s).length + r0.ph.length + phPos text r0.e u r := by
  unfold phPos
  rw [goP_cons, endOf_cons, List.length_append, List.length_append]
  omega

/-- Localization of token occurrences in a rendered text over a token-free
original: every placeholder-shaped token occurring in the rendered text is one
of the replacements' placeholders, at its rendered offset. -/
theorem occ_render_loc (text : Text) (ht : tokFree text) (rs : List Rep) :
    ∀ (pos q : Nat) (t : Text), repsOKb text pos rs = true →
    (∀ x ∈ rs, TokFull x.ph) → TokFull t → occAt (render text pos rs) q t →
    ∃ u r v, rs = u ++ r :: v ∧ t = r.ph ∧ q = phPos text pos u r := by
  induction rs with
  | nil =>
    intro pos q t _ _ htok hocc
    rw [render_nil] at hocc
    exact absurd (occAt_drop text pos q t hocc) (ht (pos + q) t htok)
  | cons r0 rest ih =>
    intro pos q t hOK htf htok hocc
    rw [repsOKb_cons] at hOK
    obtain ⟨h1, h2, h3, h4⟩ := hOK
    rw [render_cons] at hocc
    have hph0 : TokFull r0.ph := htf r0 (List.mem_cons_self r0 rest)
    have hphlen : 3 ≤ r0.ph.length := TokFull_length _ hph0
    have htlen : 3 ≤ t.length := TokFull_length t htok
    by_cases hc1 : q + t.length ≤ (seg text pos r0.s).length
    · exfalso
      rw [List.append_assoc] at hocc
      have hoccS := occAt_append_left _ _ q t hc1 hocc
      exact ht (pos + q) t htok (occAt_of_seg text pos r0.s q t hoccS)
    · by_cases hc2 : (seg text pos r0.s).length + r0.ph.length ≤ q
      · have hlen2 : (seg text pos r0.s ++ r0.ph).length ≤ q := by
          rw [List.length_append]
          omega
        have hocc2 := occAt_append_right _ _ q t hlen2 hocc
        rw [List.length_append] at hocc2
        obtain ⟨u, r, v, hrs, htph, hq⟩ := ih r0.e _ t h4
          (fun x hx => htf x (List.mem_cons_of_mem r0 hx)) htok hocc2
        refine ⟨r0 :: u, r, v, by rw [hrs, List.cons_append], htph, ?_⟩
        rw [phPos_cons]
        omega
      · by_cases hc3 : q = (seg text pos r0.s).length
        · rw [List.append_assoc] at hocc
          have hocc0 := occAt_append_right _ _ q t (le_of_eq hc3.symm) hocc
          rw [hc3, Nat.sub_self] at hocc0
          have hteq := tok_startsWith_tok t r0.ph _ htok hph0 hocc0
          refine ⟨[], r0, rest, rfl, hteq, ?_⟩
          unfold phPos
          rw [hc3]
          show _ = (goP text pos []).length + _
          unfold goP
          rw [List.length_nil]
          show (seg text pos r0.s).length = 0 + (seg text (endOf pos []) r0.s).length
          unfold endOf
          omega
        · rcases Nat.lt_or_ge q (seg text pos r0.s).length with hlt | hge
          · exfalso
            have hi1 : 1 ≤ (seg text pos r0.s).length - q := by omega
            have hi2 : (seg text pos r0.s).length - q < t.length := by omega
            have hchar := occAt_getD _ q t hocc ((seg text pos r0.s).length - q)
              hi2 ' '
            have hqi : q + ((seg text pos r0.s).length - q) =
                (seg text pos r0.s).length := by omega
            rw [hqi] at hchar
            have hW : (seg text pos r0.s ++ r0.ph ++ render text r0.e rest).getD
                (seg text pos r0.s).length ' ' = '[' := by
              rw [List.getD_append _ _ ' ' _ (by rw [List.length_append]; omega),
                List.getD_append_right _ _ ' ' _ (le_refl _), Nat.sub_self]
              exact TokFull_getD_zero r0.ph hph0
            rw [hW] at hchar
            exact TokFull_inner_no_open t htok _ hi1 hi2
              (occAt_singleton_of_getD t _ hi2 '[' hchar.symm)
          · have hgt : (seg text pos r0.s).length < q := by
              rcases Nat.lt_or_ge (seg text pos r0.s).length q with h | h
              · exact h
              · exact absurd (Nat.le_antisymm h hge) hc3
            exfalso
            have hchar := occAt_getD _ q t hocc 0 (by omega) ' '
            rw [Nat.add_zero, TokFull_getD_zero t htok] at hchar
            have hi1 : 1 ≤ q - (seg text pos r0.s).length := by omega
            have hi2 : q - (seg text pos r0.s).length < r0.ph.length := by omega
            have hW : (seg text pos r0.s ++ r0.ph ++ render text r0.e rest).getD q ' ' =
                r0.ph.getD (q - (seg text pos r0.s).length) ' ' := by
              rw [List.getD_append _ _ ' ' _ (by rw [List.length_append]; omega),
                List.getD_append_right _ _ ' ' _ (by omega)]
            rw [hW] at hchar
            exact TokFull_inner_no_open r0.ph hph0 _ hi1 hi2
              (occAt_singleton_of_getD r0.ph _ hi2 '[' hchar)

theorem goP_append (text : Text) (u w : List Rep) : ∀ pos,
    goP text pos (u ++ w) = goP text pos u ++ goP text (endOf pos u) w := by
  induction u with
  | nil => intro pos; rfl
  | cons r u ih =>
    intro pos
    rw [List.cons_append, goP_cons, goP_cons, ih, endOf_cons]
    simp only [List.append_assoc]

theorem endOf_append (u w : List Rep) : ∀ pos,
    endOf pos (u ++ w) = endOf (endOf pos u) w := by
  induction u with
  | nil => intro pos; rfl
  | cons r u ih =>
    intro pos
    rw [List.cons_append, endOf_cons, endOf_cons, ih]

theorem render_append (text : Text) (u w : List Rep) (pos : Nat) :
    render text pos (u ++ w) = goP text pos u ++ render text (endOf pos u) w := by
  unfold render
  rw [goP_append, endOf_append, List.append_assoc]

theorem repsOKb_append_split (text : Text) (u : List Rep) : ∀ pos (w : List Rep),
    repsOKb text pos (u ++ w) = true →
    repsOKb text (endOf pos u) w = true ∧ pos ≤ endOf pos u := by
  induction u with
  | nil =>
    intro pos w h
    exact ⟨h, le_refl pos⟩
  | cons r u ih =>
    intro pos w h
    rw [List.cons_append, repsOKb_cons] at h
    obtain ⟨h1, h2, h3, h4⟩ := h
    obtain ⟨hw, hle⟩ := ih r.e w h4
    rw [endOf_cons]
    exact ⟨hw, by omega⟩

theorem render_split_mid (text : Text) (pos : Nat) (u : List Rep) (r : Rep) (v : List Rep) :
    render text pos (u ++ r :: v) =
      (goP text pos u ++ seg text (endOf pos u) r.s) ++ r.ph ++ render text r.e v := by
  rw [render_append, render_cons]
  simp only [List.append_assoc]

theorem render_removed (text : Text) (pos : Nat) (u : List Rep) (r : Rep) (v : List Rep)
    (hOK : repsOKb text pos (u ++ r :: v) = true) :
    render text pos (u ++ v) =
      (goP text pos u ++ seg text (endOf pos u) r.s) ++ seg text r.s r.e ++
        render text r.e v := by
  rw [render_append]
  obtain ⟨hmid, hle⟩ := repsOKb_append_split text u pos (r :: v) hOK
  rw [repsOKb_cons] at hmid
  obtain ⟨m1, m2, m3, m4⟩ := hmid
  rw [List.append_assoc, List.append_assoc]
  congr 1
  cases v with
  | nil =>
    rw [render_nil, render_nil]
    rw [seg_append_drop text r.s r.e (by omega), seg_append_drop text (endOf pos u) r.s m1]
  | cons v0 v' =>
    rw [repsOKb_cons] at m4
    obtain ⟨n1, n2, n3, n4⟩ := m4
    rw [render_cons, render_cons]
    rw [← seg_glue text (endOf pos u) r.e v0.s (by omega) (by omega),
      ← seg_glue text (endOf pos u) r.s r.e m1 (by omega)]
    simp only [List.append_assoc]

theorem nodup_mid_eq {α : Type} (x : α) : ∀ (a c b d : List α),
    a ++ x :: b = c ++ x :: d → (a ++ x :: b).Nodup → a = c ∧ b = d := by
  intro a
  induction a with
  | nil =>
    intro c b d heq hnd
    cases c with
    | nil =>
      rw [List.nil_append, List.nil_append] at heq
      exact ⟨rfl, (List.cons.injEq .. |>.mp heq).2⟩
    | cons c0 c' =>
      rw [List.nil_append, List.cons_append] at heq
      obtain ⟨h1, h2⟩ := List.cons.injEq .. |>.mp heq
      exfalso
      rw [List.nil_append] at hnd
      have hx : x ∈ b := by
        rw [h2]
        exact List.mem_append.mpr (Or.inr (List.mem_cons_self x d))
      exact (List.nodup_cons.mp hnd).1 hx
  | cons a0 a' ih =>
    intro c b d heq hnd
    cases c with
    | nil =>
      rw [List.nil_append] at heq
      rw [List.cons_append] at heq
      obtain ⟨h1, h2⟩ := List.cons.injEq .. |>.mp heq
      exfalso
      rw [List.cons_append] at hnd
      have hx : x ∈ a' ++ x :: b := List.mem_append.mpr (Or.inr (List.mem_cons_self x b))
      have hnotin := (List.nodup_cons.mp hnd).1
      rw [h1] at hnotin
      exact hnotin hx
    | cons c0 c' =>
      rw [List.cons_append, List.cons_append] at heq
      obtain ⟨h1, h2⟩ := List.cons.injEq .. |>.mp heq
      rw [List.cons_append] at hnd
      obtain ⟨hab, hbd⟩ := ih c' b d h2 (List.nodup_cons.mp hnd).2
      exact ⟨by rw [h1, hab], hbd⟩

theorem replace_step (text : Text) (ht : tokFree text) (u : List Rep) (r : Rep)
    (v : List Rep) (hOK : repsOKb text 0 (u ++ r :: v) = true)
    (htf : ∀ x ∈ u ++ r :: v, TokFull x.ph)
    (hnd : ((u ++ r :: v).map Rep.ph).Nodup) :
    replaceAll r.ph (seg text r.s r.e) (render text 0 (u ++ r :: v)) =
      render text 0 (u ++ v) := by
  have hph : TokFull r.ph :=
    htf r (List.mem_append.mpr (Or.inr (List.mem_cons_self r v)))
  have hphne : r.ph ≠ [] := TokFull_ne_nil _ hph
  have huniq : ∀ q, occAt ((goP text 0 u ++ seg text (endOf 0 u) r.s) ++ r.ph ++
      render text r.e v) q r.ph → q = (goP text 0 u ++ seg text (endOf 0 u) r.s).length := by
    intro q hq
    rw [← render_split_mid text 0 u r v] at hq
    obtain ⟨u', r', v', heq, hphEq, hqEq⟩ :=
      occ_render_loc text ht (u ++ r :: v) 0 q r.ph hOK htf hph hq
    have hmapeq : u.map Rep.ph ++ r.ph :: v.map Rep.ph =
        u'.map Rep.ph ++ r.ph :: v'.map Rep.ph := by
      have := congrArg (List.map Rep.ph) heq
      rw [List.map_append, List.map_cons, List.map_append, List.map_cons, ← hphEq] at this
      exact this
    have hndm : (u.map Rep.ph ++ r.ph :: v.map Rep.ph).Nodup := by
      rw [List.map_append, List.map_cons] at hnd
      exact hnd
    have hu : u.map Rep.ph = u'.map Rep.ph := (nodup_mid_eq r.ph _ _ _ _ hmapeq hndm).1
    have hulen : u.length = u'.length := by
      have := congrArg List.length hu
      rwa [List.length_map, List.length_map] at this
    obtain ⟨huu, hcons⟩ := List.append_inj heq hulen
    obtain ⟨hrr, _⟩ := List.cons.injEq .. |>.mp hcons
    rw [hqEq, ← huu, ← hrr]
    unfold phPos
    rw [List.length_append]
  rw [render_split_mid text 0 u r v,
    replaceAll_single r.ph (seg text r.s r.e) hphne _ _ huniq,
    render_removed text 0 u r v hOK]

theorem deanonymize_render (text : Text) (ht : tokFree text) (ps : List (Text × Text)) :
    ∀ rs : List Rep, repsOKb text 0 rs = true → (∀ x ∈ rs, TokFull x.ph) →
    (rs.map Rep.ph).Nodup → ps.Perm (rs.map (pairOf text)) →
    deanonymize (render text 0 rs) ps = text := by
  induction ps with
  | nil =>
    intro rs hOK htf hnd hperm
    have hnilm : rs.map (pairOf text) = [] := hperm.symm.eq_nil
    have hrs : rs = [] := List.map_eq_nil_iff.mp hnilm
    subst hrs
    show render text 0 [] = text
    rw [render_nil, List.drop_zero]
  | cons p ps' ih =>
    intro rs hOK htf hnd hperm
    have hmem : p ∈ rs.map (pairOf text) :=
      hperm.subset (List.mem_cons_self p ps')
    obtain ⟨r, hr, hpr⟩ := List.mem_map.mp hmem
    obtain ⟨u, v, hrs⟩ := List.append_of_mem hr
    subst hrs
    subst hpr
    show deanonymize
      (replaceAll (pairOf text r).1 (pairOf text r).2 (render text 0 (u ++ r :: v))) ps' =
        text
    have hstep := replace_step text ht u r v hOK htf hnd
    rw [show (pairOf text r).1 = r.ph from rfl,
      show (pairOf text r).2 = seg text r.s r.e from rfl, hstep]
    have hOK' := repsOKb_remove_mid text u 0 r v hOK
    have htf' : ∀ x ∈ u ++ v, TokFull x.ph := by
      intro x hx
      rcases List.mem_append.mp hx with h | h
      · exact htf x (List.mem_append.mpr (Or.inl h))
      · exact htf x (List.mem_append.mpr (Or.inr (List.mem_cons_of_mem r h)))
    have hnd' : ((u ++ v).map Rep.ph).Nodup := by
      rw [List.map_append]
      rw [List.map_append, List.map_cons] at hnd
      exact List.Nodup.sublist
        (List.Sublist.append_left (List.sublist_cons_self r.ph (v.map Rep.ph)) _) hnd
    have hperm' : ps'.Perm ((u ++ v).map (pairOf text)) := by
      have h1 := hperm
      rw [List.map_append, List.map_cons] at h1
      have h2 := h1.trans List.perm_middle
      have h3 := (List.perm_cons (pairOf text r)).mp h2
      rw [List.map_append]
      exact h3
    exact ih (u ++ v) hOK' htf' hnd' hperm'

/-- C2 (amended): the pseudonymize/restore round trip
`deanonymize(redact(T, deanonymize=True))` returns the original text `T`
whenever `T` contains no placeholder-shaped token `[A-Z_]+(_[0-9]+)?` in
brackets, and the pipeline's entities are in-bounds, ascending and
non-overlapping with well-formed labels.  (The unconditional claim is refuted
separately: a literal placeholder in `T` is clobbered by the naive
`str.replace` restore.) -/
theorem c2_redact_restore_round_trip (text : Text) (ents : List Ent)
    (htok : tokensOf text = []) (hents : entsFrom text 0 ents = true) :
    deanonymize (redact text ents true).1 (redact text ents true).2 = text := by
  obtain ⟨b, i1, i2, i3, i4, i5, i6⟩ := prepare_inv text ents hents
  have htf := tokFree_of_tokensOf text htok
  have hsort : List.insertionSort repDescRel (prepare text true ents).2 =
      (prepare text true ents).2.reverse :=
    insertionSort_desc_of_ascending _ (repsOKb_pairwise_lt text _ 0 i3)
  have happ : applyReps text (prepare text true ents).2.reverse =
      render text 0 (prepare text true ents).2 := applyReps_reverse text _ i3
  have hphnd : ((prepare text true ents).2.map Rep.ph).Nodup := by
    have hm := i6.map Prod.fst
    rw [List.map_map] at hm
    have hmap : List.map (Prod.fst ∘ pairOf text) (prepare text true ents).2 =
        (prepare text true ents).2.map Rep.ph := rfl
    rw [hmap] at hm
    exact (List.Perm.nodup_iff hm).mp i2
  show deanonymize (applyReps text (List.insertionSort repDescRel (prepare text true ents).2))
    (flattenEM (prepare text true ents).1) = text
  rw [hsort, happ]
  exact deanonymize_render text htf (flattenEM (prepare text true ents).1)
    (prepare text true ents).2 i3 i5 hphnd i6

theorem c2_round_trip_witness :
    tokensOf (str "Hi John Doe") = [] ∧
      entsFrom (str "Hi John Doe") 0 [⟨str "PERSON", 3, 11⟩] = true ∧
      deanonymize (redact (str "Hi John Doe") [⟨str "PERSON", 3, 11⟩] true).1
          (redact (str "Hi John Doe") [⟨str "PERSON", 3, 11⟩] true).2 =
        str "Hi John Doe" :=
  ⟨by decide, by decide,
    c2_redact_restore_round_trip (str "Hi John Doe") [⟨str "PERSON", 3, 11⟩]
      (by decide) (by decide)⟩

/-- C2 counterexample to the unconditional claim: a text already containing
the literal string `[PERSON_0]` does not round-trip — redacting the actual
PERSON span "John" emits the same placeholder `[PERSON_0]`, and the restore's
`str.replace` rewrites the pre-existing literal too. -/
theorem c2_counterexample_lookalike :
    deanonymize
        (redact (str "John wrote [PERSON_0].") [⟨str "PERSON", 0, 4⟩] true).1
        (redact (str "John wrote [PERSON_0].") [⟨str "PERSON", 0, 4⟩] true).2 =
      str "John wrote John." ∧
      str "John wrote John." ≠ str "John wrote [PERSON_0]." := by
  refine ⟨by decide, by decide⟩

/-!  C4: position-verified restore.  Modelled from the spec: the repository
declares `ProcessedData.entity_positions` (`interfaces.py`) and its tests
exercise a position-tracked restore, but `src/` never populates or consumes
the field, so the recorded positions and the verified splice are built here
from the spec's words. -/

/-- Modelled from the spec: the `(placeholder, (start, end))` ranges of each
emitted placeholder in the redacted text, accumulated while rendering (`pos`
is the cursor in the original text, `out` the cursor in the output). -/
def positionsGo (text : Text) : Nat → Nat → List Rep → List (Text × Nat × Nat)
  | _, _, [] => []
  | pos, out, r :: rest =>
    (r.ph, out + (seg text pos r.s).length,
        out + (seg text pos r.s).length + r.ph.length) ::
      positionsGo text r.e (out + (seg text pos r.s).length + r.ph.length) rest

/-- Modelled from the spec: the `entity_positions` of one redaction call. -/
def entity_positions (text : Text) (rs : List Rep) : List (Text × Nat × Nat) :=
  positionsGo text 0 0 rs

/-- Modelled from the spec: one restore step — look the placeholder up in the
entity map, verify `text[start:end] == placeholder`, and only then splice the
original back in at that exact range. -/
def restoreStepWP (em : List (Text × Text)) (acc : Text) (item : Text × Nat × Nat) :
    Text :=
  match lookupA em item.1 with
  | some orig =>
    if seg acc item.2.1 item.2.2 = item.1 then
      acc.take item.2.1 ++ orig ++ acc.drop item.2.2
    else acc
  | none => acc

/-- Modelled from the spec: restore using the recorded positions, processed in
descending start order so that pending ranges stay valid. -/
def restore_with_positions (em : List (Text × Text)) (ps : List (Text × Nat × Nat))
    (t : Text) : Text :=
  ps.reverse.foldl (restoreStepWP em) t

theorem positionsGo_cons (text : Text) (pos out : Nat) (r : Rep) (rest : List Rep) :
    positionsGo text pos out (r :: rest) =
      (r.ph, out + (seg text pos r.s).length,
          out + (seg text pos r.s).length + r.ph.length) ::
        positionsGo text r.e (out + (seg text pos r.s).length + r.ph.length) rest := rfl

theorem restoreStepWP_eq (em : List (Text × Text)) (acc ph : Text) (a b : Nat) :
    restoreStepWP em acc (ph, a, b) =
      match lookupA em ph with
      | some orig => if seg acc a b = ph then acc.take a ++ orig ++ acc.drop b else acc
      | none => acc := rfl

theorem positionsGo_append (text : Text) (u w : List Rep) : ∀ pos out,
    positionsGo text pos out (u ++ w) =
      positionsGo text pos out u ++
        positionsGo text (endOf pos u) (out + (goP text pos u).length) w := by
  induction u with
  | nil =>
    intro pos out
    rw [List.nil_append]
    show positionsGo text pos out w =
      positionsGo text (endOf pos []) (out + (goP text pos []).length) w
    show positionsGo text pos out w = positionsGo text pos (out + 0) w
    rw [Nat.add_zero]
  | cons r u ih =>
    intro pos out
    rw [List.cons_append, positionsGo_cons, positionsGo_cons, ih, endOf_cons, goP_cons,
      List.length_append, List.length_append]
    simp only [Nat.add_assoc]
    rw [List.cons_append]

theorem repsOKb_append_left (text : Text) (u : List Rep) : ∀ pos (w : List Rep),
    repsOKb text pos (u ++ w) = true → repsOKb text pos u = true := by
  induction u with
  | nil => intro pos w _; rfl
  | cons r u ih =>
    intro pos w h
    rw [List.cons_append, repsOKb_cons] at h
    rw [repsOKb_cons]
    exact ⟨h.1, h.2.1, h.2.2.1, ih r.e w h.2.2.2⟩

theorem seg_exact (a t b : Text) :
    seg ((a ++ t) ++ b) a.length (a.length + t.length) = t := by
  unfold seg
  rw [List.append_assoc, List.drop_left, Nat.add_sub_cancel_left, List.take_left]

theorem restoreWP_step (text : Text) (em : List (Text × Text)) (u : List Rep) (r : Rep)
    (a b : Nat) (hOK : repsOKb text 0 (u ++ [r]) = true)
    (hlook : lookupA em r.ph = some (seg text r.s r.e))
    (ha : a = (goP text 0 u).length + (seg text (endOf 0 u) r.s).length)
    (hb : b = a + r.ph.length) :
    restoreStepWP em (render text 0 (u ++ [r])) (r.ph, a, b) = render text 0 u := by
  obtain ⟨hmid, hle⟩ := repsOKb_append_split text u 0 [r] hOK
  rw [repsOKb_cons] at hmid
  obtain ⟨m1, m2, m3, _⟩ := hmid
  have haA : a = (goP text 0 u ++ seg text (endOf 0 u) r.s).length := by
    rw [List.length_append]
    exact ha
  have hrend : render text 0 (u ++ [r]) =
      (goP text 0 u ++ seg text (endOf 0 u) r.s) ++ r.ph ++ text.drop r.e := by
    rw [render_split_mid, render_nil]
  rw [restoreStepWP_eq, hlook, hrend, haA, hb, haA]
  show (if seg _ _ _ = r.ph then _ else _) = _
  rw [seg_exact]
  rw [if_pos rfl]
  rw [← List.length_append (goP text 0 u ++ seg text (endOf 0 u) r.s) r.ph,
    List.drop_left,
    List.append_assoc (goP text 0 u ++ seg text (endOf 0 u) r.s) r.ph (text.drop r.e),
    List.take_left]
  show _ = goP text 0 u ++ text.drop (endOf 0 u)
  simp only [List.append_assoc]
  rw [seg_append_drop text r.s r.e (le_of_lt m2), seg_append_drop text (endOf 0 u) r.s m1]

theorem positionsGo_singleton (text : Text) (pos out : Nat) (r : Rep) :
    positionsGo text pos out [r] =
      [(r.ph, out + (seg text pos r.s).length,
        out + (seg text pos r.s).length + r.ph.length)] := rfl

theorem restoreWP_round (text : Text) (em : List (Text × Text)) : ∀ rs : List Rep,
    repsOKb text 0 rs = true →
    (∀ r ∈ rs, lookupA em r.ph = some (seg text r.s r.e)) →
    restore_with_positions em (entity_positions text rs) (render text 0 rs) = text := by
  intro rs
  induction rs using List.reverseRecOn with
  | nil =>
    intro _ _
    show render text 0 [] = text
    rw [render_nil, List.drop_zero]
  | append_singleton u r ih =>
    intro hOK hlook
    unfold restore_with_positions entity_positions
    rw [positionsGo_append, positionsGo_singleton, List.reverse_append,
      List.reverse_singleton, List.singleton_append, List.foldl_cons]
    have hstep := restoreWP_step text em u r
      (0 + (goP text 0 u).length + (seg text (endOf 0 u) r.s).length)
      (0 + (goP text 0 u).length + (seg text (endOf 0 u) r.s).length + r.ph.length)
      hOK (hlook r (List.mem_append.mpr (Or.inr (List.mem_cons_self r []))))
      (by omega) rfl
    rw [hstep]
    exact ih (repsOKb_append_left text u 0 [r] hOK)
      (fun x hx => hlook x (List.mem_append.mpr (Or.inl hx)))

/-- C4 (modelled from the spec): restoring with the position information
recorded by the same redaction call verifies `text[start:end] == placeholder`
and splices at that exact range only, so the redact-then-restore round trip
returns the original text even when the original already contained a literal
placeholder-shaped string — no token-free hypothesis is needed, unlike the
naive `str.replace` restore. -/
theorem c4_position_verified_restore (text : Text) (ents : List Ent)
    (hents : entsFrom text 0 ents = true) :
    restore_with_positions (redact text ents true).2
        (entity_positions text (prepare text true ents).2)
        (redact text ents true).1 = text := by
  obtain ⟨b, i1, i2, i3, i4, i5, i6⟩ := prepare_inv text ents hents
  have hsort : List.insertionSort repDescRel (prepare text true ents).2 =
      (prepare text true ents).2.reverse :=
    insertionSort_desc_of_ascending _ (repsOKb_pairwise_lt text _ 0 i3)
  have happ : applyReps text (prepare text true ents).2.reverse =
      render text 0 (prepare text true ents).2 := applyReps_reverse text _ i3
  have hlook : ∀ r ∈ (prepare text true ents).2,
      lookupA (flattenEM (prepare text true ents).1) r.ph =
        some (seg text r.s r.e) := by
    intro r hr
    have hmem : (r.ph, seg text r.s r.e) ∈ flattenEM (prepare text true ents).1 :=
      (List.Perm.mem_iff i6).mpr (List.mem_map.mpr ⟨r, hr, rfl⟩)
    exact lookupA_of_mem_nodup _ _ _ hmem i2
  show restore_with_positions (flattenEM (prepare text true ents).1)
      (entity_positions text (prepare text true ents).2)
      (applyReps text (List.insertionSort repDescRel (prepare text true ents).2)) = text
  rw [hsort, happ]
  exact restoreWP_round text _ (prepare text true ents).2 i3 hlook

theorem c4_lookalike_witness :
    entsFrom (str "The code uses [PERSON_0] as a variable name. John Doe wrote it.") 0
        [⟨str "PERSON", 45, 53⟩] = true ∧
      (redact (str "The code uses [PERSON_0] as a variable name. John Doe wrote it.")
          [⟨str "PERSON", 45, 53⟩] true).1 =
        str "The code uses [PERSON_0] as a variable name. [PERSON_0] wrote it." ∧
      restore_with_positions
          (redact (str "The code uses [PERSON_0] as a variable name. John Doe wrote it.")
            [⟨str "PERSON", 45, 53⟩] true).2
          (entity_positions
            (str "The code uses [PERSON_0] as a variable name. John Doe wrote it.")
            (prepare (str "The code uses [PERSON_0] as a variable name. John Doe wrote it.")
              true [⟨str "PERSON", 45, 53⟩]).2)
          (redact (str "The code uses [PERSON_0] as a variable name. John Doe wrote it.")
            [⟨str "PERSON", 45, 53⟩] true).1 =
        str "The code uses [PERSON_0] as a variable name. John Doe wrote it." :=
  ⟨by decide, by decide, c4_position_verified_restore _ _ (by decide)⟩

/-!  C5: restore with hallucination detection.  Modelled from the spec: the
repository's tests exercise `restore` with unmatched-token warnings, but
`src/` only ships the bare `deanonymize` replace loop, so the scanning
substitution and the warning collection are built here from the spec's
words. -/

/-- Modelled from the spec: substitute one scanned piece — a placeholder-shaped
token that is a key of the entity map becomes its original, any other token is
left untouched, plain characters pass through. -/
def substPiece (em : List (Text × Text)) : Piece → Text
  | .plain c => [c]
  | .tok tk =>
    match lookupA em tk with
    | some orig => orig
    | none => tk

/-- Modelled from the spec: the restored text — scan the input into plain
characters and placeholder-shaped tokens, substitute the known tokens. -/
def restoreStr (em : List (Text × Text)) (t : Text) : Text :=
  ((pieces t).map (substPiece em)).flatten

/-- Modelled from the spec: the unmatched-token warnings — after substitution,
every placeholder-shaped token remaining in the output that is not a key of
the entity map, one warning per distinct token. -/
def restoreWarns (em : List (Text × Text)) (t : Text) : List Text :=
  ((tokensOf (restoreStr em t)).filter fun tk => (lookupA em tk).isNone).dedup

/-- Modelled from the spec: `restore` returns the best-effort output together
with the warning list; it never fails. -/
def restore (em : List (Text × Text)) (t : Text) : Text × List Text :=
  (restoreStr em t, restoreWarns em t)

theorem substPiece_tok_none (em : List (Text × Text)) (tk : Text)
    (h : lookupA em tk = none) : substPiece em (Piece.tok tk) = tk := by
  show (match lookupA em tk with | some orig => orig | none => tk) = tk
  rw [h]

/-- C5 (modelled from the spec): a warning is emitted exactly for the
placeholder-shaped tokens of the output that are not keys of the entity map,
with no duplicates; every unknown token scanned in the input is left in the
output and reported; and the spec's concrete vector behaves as stated —
`[PERSON_0]` is substituted, `[PERSON_99]` survives and is the one warning. -/
theorem c5_restore_unmatched_token_warnings (em : List (Text × Text)) (t : Text) :
    (∀ tk, tk ∈ (restore em t).2 ↔
      tk ∈ tokensOf (restoreStr em t) ∧ lookupA em tk = none) ∧
    (restore em t).2.Nodup ∧
    (∀ tk, Piece.tok tk ∈ pieces t → lookupA em tk = none → tk ∈ (restore em t).2) ∧
    restore [(str "[PERSON_0]", str "John")]
        (str "Hello [PERSON_0], friend [PERSON_99] called.") =
      (str "Hello John, friend [PERSON_99] called.", [str "[PERSON_99]"]) := by
  refine ⟨?_, ?_, ?_, by decide⟩
  · intro tk
    show tk ∈ restoreWarns em t ↔ _
    unfold restoreWarns
    rw [List.mem_dedup, List.mem_filter, Option.isNone_iff_eq_none]
  · exact List.nodup_dedup _
  · intro tk hmem hnone
    obtain ⟨P1, P2, hP⟩ := List.append_of_mem hmem
    have htf : TokFull tk := (pieces_tok_occurs t tk hmem).1
    have hout : restoreStr em t =
        ((P1.map (substPiece em)).flatten ++ tk) ++ (P2.map (substPiece em)).flatten := by
      unfold restoreStr
      rw [hP, List.map_append, List.map_cons, List.flatten_append, List.flatten_cons,
        substPiece_tok_none em tk hnone, ← List.append_assoc]
    have hocc : occAt (restoreStr em t) (P1.map (substPiece em)).flatten.length tk := by
      rw [hout]
      exact occAt_here _ _ tk
    have htok : tk ∈ tokensOf (restoreStr em t) :=
      occ_mem_tokensOf _ _ tk htf hocc
    show tk ∈ restoreWarns em t
    unfold restoreWarns
    rw [List.mem_dedup, List.mem_filter, Option.isNone_iff_eq_none]
    exact ⟨htok, hnone⟩

end Inconnu
